import Mathlib

set_option maxHeartbeats 1000000

/-!
Shallow embedding of the diskhash on-disk hash table (repository thsfs/diskhash).

The repository sources under src contain only the public header
src/src/diskhash.h; the implementation file (diskhash.c) is not among the
provided sources.  The header fixes the operation signatures and return
codes, while the behaviour of every operation is modelled below from the
specification (spec.md).  Modelling conventions: byte strings are lists of
natural numbers; the primary bucket table and the store table are total
functions from positions, consulted only below the capacity bound; the
pointer into the memory mapping returned by lookup is modelled as an Option
holding the payload bytes; allocation and OS failure during reserve is
modelled by an explicit Boolean oracle argument.
-/

/-- Modelled from the spec (3. Data model): a primary bucket is a 64-bit
value that is either 0 (never occupied), the tombstone sentinel (previously
occupied, now deleted), or a positive value i referencing the live entry at
store-table slot i-1.  The implementation file holding this encoding is
missing from src. -/
inductive Bucket where
  | empty : Bucket
  | tomb : Bucket
  | ref : Nat → Bucket
deriving DecidableEq, Repr

/-- True on a bucket holding a live store-table reference. -/
def Bucket.isRef : Bucket → Bool
  | .ref _ => true
  | _ => false

/-- True on a bucket that has been touched (live reference or tombstone). -/
def Bucket.nonEmpty : Bucket → Bool
  | .empty => false
  | _ => true

/-- Modelled from the spec (3. Data model): a store-table slot is a packed
record of a NUL-terminated key field and a fixed-width payload field; the
model keeps the key bytes and the payload bytes. -/
structure Slot where
  key : List Nat
  payload : List Nat
deriving DecidableEq, Repr

/-- Modelled from the spec (3. Data model): the state of an open table, i.e.
the header fields together with the primary bucket table and the store
table; diskhash.c is missing from src, so the state is taken from the spec
data model.  The readOnly field records the open mode. -/
structure HT where
  key_maxlen : Nat
  object_datalen : Nat
  capacity : Nat
  buckets : Nat → Bucket
  store : Nat → Slot
  slots_used : Nat
  size : Nat
  cursor : Nat
  readOnly : Bool

/-- errno value used for the invalid-argument return code -EINVAL. -/
def EINVAL : Int := 22
/-- errno value used for the access-denied return code -EACCES. -/
def EACCES : Int := 13
/-- errno value used for the out-of-memory return code -ENOMEM. -/
def ENOMEM : Int := 12
/-- errno value used for the must-never-happen overflow return code -ENFILE. -/
def ENFILE : Int := 23
/-- errno value used for the no-data return code -EFAULT. -/
def EFAULT : Int := 14

/-- Modelled from the spec (4.2 Hasher): the hasher is only specified as a
deterministic, seed-less string hash yielding a 64-bit value that depends on
every key byte; the concrete function lives in the missing diskhash.c, so
the model uses the 64-bit FNV-1a recurrence with arithmetic reduced
mod 2 ^ 64. -/
def dht_hash (k : List Nat) : Nat :=
  k.foldl (fun h b => ((h ^^^ b) * 1099511628211) % 2 ^ 64) 14695981039346656037

/-- Position probed at offset j for key k in state s: linear probing starting
at the hash reduced modulo the capacity (spec 4.2/4.3). -/
def probePos (s : HT) (k : List Nat) (j : Nat) : Nat :=
  (dht_hash k + j) % s.capacity

/-- Result of the probe loop shared by lookup, update and delete. -/
inductive ProbeRes where
  | found : Nat → Nat → ProbeRes
  | notfound : ProbeRes
  | exhausted : ProbeRes
deriving DecidableEq, Repr

/-- Modelled from the spec (4.3 Probe engine, Lookup): linear probe starting
at offset j with the given fuel; stops at the first empty bucket (not
found), skips tombstones, and on a live bucket compares the stored key with
the probe key, returning the bucket position and the 0-based store index on
a match.  Exhausting the fuel (the caller passes the capacity) means the
probe walked the entire bucket table. -/
def probeFind (s : HT) (k : List Nat) : Nat → Nat → ProbeRes
  | 0, _ => .exhausted
  | fuel + 1, j =>
    match s.buckets (probePos s k j) with
    | .empty => .notfound
    | .tomb => probeFind s k fuel (j + 1)
    | .ref i =>
      if (s.store (i - 1)).key = k then .found (probePos s k j) (i - 1)
      else probeFind s k fuel (j + 1)

/-- Result of the insert probe pass. -/
inductive InsProbe where
  | dup : InsProbe
  | place : Nat → Bool → InsProbe
  | overflow : InsProbe
deriving DecidableEq, Repr

/-- Modelled from the spec (4.3 Probe engine, Insert): one pass that records
the first tombstone encountered (accumulator tr); on a matching key it
reports a duplicate; at the first empty bucket it reports the placement
position, namely the recorded tombstone if any (reused = true) else the
empty bucket itself (reused = false). -/
def probeInsert (s : HT) (k : List Nat) : Option Nat → Nat → Nat → InsProbe
  | _, 0, _ => .overflow
  | tr, fuel + 1, j =>
    match s.buckets (probePos s k j) with
    | .empty =>
      match tr with
      | some t => .place t true
      | none => .place (probePos s k j) false
    | .tomb => probeInsert s k (some (tr.getD (probePos s k j))) fuel (j + 1)
    | .ref i =>
      if (s.store (i - 1)).key = k then .dup
      else probeInsert s k tr fuel (j + 1)

/-- Modelled from the spec (header dht_lookup, spec 4.4 Lookup): returns the
payload bytes the returned pointer aims at, or none for the NULL not-found
indication.  The not-found indication also covers the never-reached case in
which the probe walks the whole table. -/
def dht_lookup (s : HT) (k : List Nat) : Option (List Nat) :=
  match probeFind s k s.capacity 0 with
  | .found _ i => some ((s.store i).payload)
  | _ => none

/-- Modelled from the spec (4.3 Insert): the state mutation performed when
the probe pass placed the new reference at bucket position pos: the store
slot at the cursor is written, the bucket receives the 1-based reference,
size and cursor are incremented, and slots_used is incremented exactly when
no tombstone was reused. -/
def placeNew (s : HT) (k v : List Nat) (pos : Nat) (reused : Bool) : HT :=
  { s with
    buckets := fun p => if p = pos then Bucket.ref (s.cursor + 1) else s.buckets p,
    store := fun j => if j = s.cursor then { key := k, payload := v } else s.store j,
    slots_used := if reused then s.slots_used else s.slots_used + 1,
    size := s.size + 1,
    cursor := s.cursor + 1 }

/-- Modelled from the spec (4.3 Insert): the probe-engine insert path,
without the table-engine validations and capacity check.  Returns the C
return code (1 inserted, 0 already present, -ENFILE for the must-never-
happen probe overflow) together with the new state. -/
def insertRaw (s : HT) (k v : List Nat) : Int × HT :=
  match probeInsert s k none s.capacity 0 with
  | .dup => (0, s)
  | .overflow => (-ENFILE, s)
  | .place pos reused => (1, placeNew s k v pos reused)

/-- Auxiliary loop for rounding up to a power of two: starting from
exponent e, returns the first power 2 ^ e that reaches m, stepping the
exponent while fuel lasts. -/
def pow2geAux (m : Nat) : Nat → Nat → Nat
  | 0, e => 2 ^ e
  | fuel + 1, e => if m ≤ 2 ^ e then 2 ^ e else pow2geAux m fuel (e + 1)

/-- Modelled from the spec (4.4 Reserve): the smallest power of two that
is ≥ m. -/
def pow2ge (m : Nat) : Nat :=
  pow2geAux m m 0

/-- Modelled from the spec (4.6 Rehasher, step 3): a fresh table region with
the new capacity, zeroed bucket and store tables, and zeroed counters. -/
def freshAt (s : HT) (cap2 : Nat) : HT :=
  { s with
    capacity := cap2,
    buckets := fun _ => Bucket.empty,
    store := fun _ => { key := [], payload := [] },
    slots_used := 0,
    size := 0,
    cursor := 0 }

/-- Modelled from the spec (4.6, invariant 4): store slot j is live exactly
when some primary bucket references it (bucket membership is the
authoritative definition of liveness). -/
def liveIdx (s : HT) (j : Nat) : Bool :=
  (List.range s.capacity).any fun p => decide (s.buckets p = Bucket.ref (j + 1))

/-- Modelled from the spec (4.6 Rehasher): walk the old store table in order
over the live range, and insert each live slot into a fresh table of the new
capacity via the ordinary probe-engine insert path; this compacts the store
table and resets tombstones. -/
def rehashInto (s : HT) (cap2 : Nat) : HT :=
  (List.range s.cursor).foldl
    (fun t j => if liveIdx s j then (insertRaw t (s.store j).key (s.store j).payload).2 else t)
    (freshAt s cap2)

/-- Modelled from the spec (header dht_reserve, spec 4.4 Reserve): rounds the
request up to the smallest power of two ≥ max(n, 8); when that does not
exceed the current capacity the call is a no-op returning the current
capacity; otherwise the table is rehashed into the larger region and the new
capacity is returned, unless allocation fails (oracle allocOk), in which
case 0 is returned and the table is unchanged. -/
def dht_reserve (s : HT) (allocOk : Bool) (n : Nat) : Nat × HT :=
  let cap2 := pow2ge (max n 8)
  if cap2 ≤ s.capacity then (s.capacity, s)
  else if allocOk then (cap2, rehashInto s cap2)
  else (0, s)

/-- Modelled from the spec (header dht_insert, spec 4.4 Insert): validates
the key length (strlen(key) < key_maxlen, else -EINVAL), then the open mode
(else -EACCES); if slots_used + 1 exceeds 3/4 of the capacity it first
reserves twice the capacity, returning -ENOMEM when that fails; finally it
runs the probe-engine insert path (1 inserted, 0 already present). -/
def dht_insert (s : HT) (allocOk : Bool) (k v : List Nat) : Int × HT :=
  if s.key_maxlen ≤ k.length then (-EINVAL, s)
  else if s.readOnly then (-EACCES, s)
  else if 3 * s.capacity / 4 < s.slots_used + 1 then
    if (dht_reserve s allocOk (2 * s.capacity)).1 = 0 then (-ENOMEM, s)
    else insertRaw (dht_reserve s allocOk (2 * s.capacity)).2 k v
  else insertRaw s k v

/-- Modelled from the spec (header dht_update, spec 4.4 Update): read-only
mode yields -EACCES; otherwise locate the key as in lookup and on a hit
overwrite the payload bytes of its store slot and return 1; on a miss return
0 with no action. -/
def dht_update (s : HT) (k v : List Nat) : Int × HT :=
  if s.readOnly then (-EACCES, s)
  else
    match probeFind s k s.capacity 0 with
    | .found _ i =>
      (1, { s with store := fun j => if j = i then { key := (s.store i).key, payload := v } else s.store j })
    | _ => (0, s)

/-- Modelled from the spec (header dht_delete, spec 4.3/4.4 Delete):
read-only mode yields -EACCES; otherwise locate the key as in lookup; on
success write the tombstone sentinel into the bucket, zero the key field of
the store slot, and decrement size (slots_used unchanged), returning 1; on a
miss return 0; if the probe walks the whole table, return the
must-never-happen overflow code -ENFILE. -/
def dht_delete (s : HT) (k : List Nat) : Int × HT :=
  if s.readOnly then (-EACCES, s)
  else
    match probeFind s k s.capacity 0 with
    | .found p i =>
      (1, { s with
        buckets := fun q => if q = p then Bucket.tomb else s.buckets q,
        store := fun j => if j = i then { key := [], payload := (s.store i).payload } else s.store j,
        size := s.size - 1 })
    | .notfound => (0, s)
    | .exhausted => (-ENFILE, s)

/-- Modelled from the spec (header dht_size): number of live entries. -/
def dht_size (s : HT) : Nat := s.size

/-- Modelled from the spec (header dht_capacity): the current capacity. -/
def dht_capacity (s : HT) : Nat := s.capacity

/-- Modelled from the spec (header dht_slots_used): number of touched
primary buckets, i.e. dirty slots plus live entries. -/
def dht_slots_used (s : HT) : Nat := s.slots_used

/-- Modelled from the spec (header dht_dirty_slots, spec 4.4):
dirty_slots = slots_used - size. -/
def dht_dirty_slots (s : HT) : Nat := s.slots_used - s.size

/-- Modelled from the spec (header dht_indexed_lookup, spec 4.4 Indexed
lookup): an index outside the live store range [0, cursor) yields -EINVAL; a
dead slot (referenced by no primary bucket) yields the no-data signal
-EFAULT; a live slot yields 1 together with the key string and a copy of the
payload bytes. -/
def dht_indexed_lookup (s : HT) (index : Nat) : Int × Option (List Nat × List Nat) :=
  if s.cursor ≤ index then (-EINVAL, none)
  else if liveIdx s index then (1, some ((s.store index).key, (s.store index).payload))
  else (-EFAULT, none)

/-- Modelled from the spec (header dht_open, spec 4.4 Open / 3. Lifecycle):
opening a newly created (length 0) file in read-write mode materializes a
fresh table with the minimum capacity 8, empty bucket and store tables and
zeroed counters; dht_open itself lives in the missing diskhash.c. -/
def dht_open_fresh (kml odl : Nat) : HT :=
  { key_maxlen := kml,
    object_datalen := odl,
    capacity := 8,
    buckets := fun _ => Bucket.empty,
    store := fun _ => { key := [], payload := [] },
    slots_used := 0,
    size := 0,
    cursor := 0,
    readOnly := false }

/-- A mutating operation of the public surface, with the allocation oracle
for the operations that may grow the table. -/
inductive Op where
  | insert : Bool → List Nat → List Nat → Op
  | update : List Nat → List Nat → Op
  | delete : List Nat → Op
  | reserve : Bool → Nat → Op
deriving Repr

/-- State after one operation. -/
def applyOp (s : HT) : Op → HT
  | .insert a k v => (dht_insert s a k v).2
  | .update k v => (dht_update s k v).2
  | .delete k => (dht_delete s k).2
  | .reserve a n => (dht_reserve s a n).2

/-- State after a sequence of operations. -/
def runOps (s : HT) : List Op → HT
  | [] => s
  | o :: rest => runOps (applyOp s o) rest

/-- The binding the specification expects for key k after one operation,
given the binding acc before it: a successful insert or update of k (return
code 1) writes its payload, a successful delete of k clears the binding, and
every other operation or outcome leaves it unchanged.  This is the payload
most recently written for k, as worded in the testable properties of the
spec. -/
def opBinding (s : HT) (o : Op) (k : List Nat) (acc : Option (List Nat)) : Option (List Nat) :=
  match o with
  | .insert a q v => if q = k ∧ (dht_insert s a q v).1 = 1 then some v else acc
  | .update q v => if q = k ∧ (dht_update s q v).1 = 1 then some v else acc
  | .delete q => if q = k ∧ (dht_delete s q).1 = 1 then none else acc
  | .reserve _ _ => acc

/-- The binding the specification expects for key k after a sequence of
operations run from state s, starting from the binding acc. -/
def traceBinding (s : HT) (ops : List Op) (k : List Nat) (acc : Option (List Nat)) :
    Option (List Nat) :=
  match ops with
  | [] => acc
  | o :: rest => traceBinding (applyOp s o) rest k (opBinding s o k acc)

/-! ### Counting the touched and live primary buckets -/

/-- Number of positions below cap whose bucket satisfies f. -/
def countB (cap : Nat) (b : Nat → Bucket) (f : Bucket → Bool) : Nat :=
  ∑ p ∈ Finset.range cap, if f (b p) then 1 else 0

theorem countB_le (cap : Nat) (b : Nat → Bucket) (f : Bucket → Bool) :
    countB cap b f ≤ cap := by
  unfold countB
  calc ∑ p ∈ Finset.range cap, (if f (b p) then 1 else 0)
      ≤ ∑ _p ∈ Finset.range cap, 1 := by
        refine Finset.sum_le_sum fun p _ => ?_
        by_cases h : f (b p) <;> simp [h]
    _ = cap := by simp

theorem countB_mono (cap : Nat) (b : Nat → Bucket) (f g : Bucket → Bool)
    (h : ∀ x, f x = true → g x = true) : countB cap b f ≤ countB cap b g := by
  unfold countB
  refine Finset.sum_le_sum fun p _ => ?_
  by_cases hf : f (b p)
  · rw [h _ hf]; simp [hf]
  · simp [hf]

theorem countB_update (cap p0 : Nat) (b : Nat → Bucket) (v : Bucket) (f : Bucket → Bool)
    (hp : p0 < cap) :
    countB cap (fun p => if p = p0 then v else b p) f + (if f (b p0) then 1 else 0) =
      countB cap b f + (if f v then 1 else 0) := by
  classical
  have hmem : p0 ∈ Finset.range cap := Finset.mem_range.mpr hp
  unfold countB
  rw [← Finset.add_sum_erase _ _ hmem, ← Finset.add_sum_erase _ (fun p => if f (b p) then 1 else 0) hmem]
  have hcongr :
      ∑ p ∈ (Finset.range cap).erase p0, (if f (if p = p0 then v else b p) then 1 else 0) =
        ∑ p ∈ (Finset.range cap).erase p0, (if f (b p) then 1 else 0) := by
    refine Finset.sum_congr rfl fun p hpmem => ?_
    have hne : p ≠ p0 := (Finset.mem_erase.mp hpmem).1
    simp [hne]
  rw [hcongr]
  have hcollapse : ((fun p => if p = p0 then v else b p) p0) = v := by simp
  rw [hcollapse]
  omega

theorem exists_empty_of_countB_lt (cap : Nat) (b : Nat → Bucket)
    (h : countB cap b Bucket.nonEmpty < cap) : ∃ p, p < cap ∧ b p = Bucket.empty := by
  by_contra hc
  push_neg at hc
  have hall : ∀ p ∈ Finset.range cap, (if Bucket.nonEmpty (b p) then 1 else 0) = 1 := by
    intro p hp
    have hb := hc p (Finset.mem_range.mp hp)
    cases hbp : b p with
    | empty => exact absurd hbp hb
    | tomb => simp [Bucket.nonEmpty, hbp]
    | ref i => simp [Bucket.nonEmpty, hbp]
  have : countB cap b Bucket.nonEmpty = cap := by
    unfold countB
    rw [Finset.sum_congr rfl hall]
    simp
  omega

/-! ### The representation invariant -/

/-- The representation invariant maintained between operations: the header
counters agree with the bucket table, the load bound holds, live references
point into the assigned store range, keys are unique across live entries,
and every live entry lies on its own probe sequence with no empty bucket
strictly before it (so the probe engine can reach it). -/
structure HTInv (s : HT) : Prop where
  cap8 : 8 ≤ s.capacity
  used_eq : s.slots_used = countB s.capacity s.buckets Bucket.nonEmpty
  size_eq : s.size = countB s.capacity s.buckets Bucket.isRef
  used_bound : s.slots_used ≤ 3 * s.capacity / 4
  ref_pos : ∀ p, p < s.capacity → ∀ i, s.buckets p = Bucket.ref i → 1 ≤ i ∧ i ≤ s.cursor
  uniq : ∀ p q i j, p < s.capacity → q < s.capacity →
    s.buckets p = Bucket.ref i → s.buckets q = Bucket.ref j →
    (s.store (i - 1)).key = (s.store (j - 1)).key → p = q
  path : ∀ p, p < s.capacity → ∀ i, s.buckets p = Bucket.ref i →
    ∃ j, j < s.capacity ∧ p = probePos s (s.store (i - 1)).key j ∧
      ∀ j2, j2 < j → s.buckets (probePos s (s.store (i - 1)).key j2) ≠ Bucket.empty

theorem HTInv.cap_pos {s : HT} (h : HTInv s) : 0 < s.capacity := by
  have := h.cap8; omega

theorem HTInv.size_le_used {s : HT} (h : HTInv s) : s.size ≤ s.slots_used := by
  rw [h.size_eq, h.used_eq]
  exact countB_mono _ _ _ _ fun x hx => by cases x <;> simp_all [Bucket.isRef, Bucket.nonEmpty]

theorem HTInv.used_le_cap {s : HT} (h : HTInv s) : s.slots_used ≤ s.capacity := by
  rw [h.used_eq]; exact countB_le _ _ _

theorem HTInv.used_lt_cap {s : HT} (h : HTInv s) : s.slots_used < s.capacity := by
  have hb := h.used_bound
  have hc := h.cap_pos
  have : 3 * s.capacity / 4 < s.capacity := by
    rw [Nat.div_lt_iff_lt_mul (by norm_num)]
    omega
  omega

theorem HTInv.exists_empty {s : HT} (h : HTInv s) :
    ∃ p, p < s.capacity ∧ s.buckets p = Bucket.empty := by
  refine exists_empty_of_countB_lt _ _ ?_
  have := h.used_lt_cap
  rw [h.used_eq] at this
  exact this

theorem inv_of_all_empty (s : HT) (h8 : 8 ≤ s.capacity)
    (hb : ∀ p, s.buckets p = Bucket.empty) (hu : s.slots_used = 0) (hs : s.size = 0) :
    HTInv s := by
  have hcount : ∀ f : Bucket → Bool, f Bucket.empty = false → countB s.capacity s.buckets f = 0 := by
    intro f hf
    unfold countB
    refine Finset.sum_eq_zero fun p _ => ?_
    rw [hb p, hf]
    simp
  refine ⟨h8, ?_, ?_, ?_, ?_, ?_, ?_⟩
  · rw [hcount Bucket.nonEmpty rfl]; exact hu
  · rw [hcount Bucket.isRef rfl]; exact hs
  · omega
  · intro p _ i hrep
    rw [hb p] at hrep
    exact absurd hrep (by simp)
  · intro p q i j _ _ hp _ _
    rw [hb p] at hp
    exact absurd hp (by simp)
  · intro p _ i hrep
    rw [hb p] at hrep
    exact absurd hrep (by simp)

theorem inv_open_fresh (kml odl : Nat) : HTInv (dht_open_fresh kml odl) :=
  inv_of_all_empty _ (by norm_num [dht_open_fresh]) (fun _ => rfl) rfl rfl

theorem inv_freshAt (s : HT) (cap2 : Nat) (h8 : 8 ≤ cap2) : HTInv (freshAt s cap2) :=
  inv_of_all_empty _ h8 (fun _ => rfl) rfl rfl

/-! ### Probe position arithmetic -/

theorem probePos_lt {s : HT} (hc : 0 < s.capacity) (k : List Nat) (j : Nat) :
    probePos s k j < s.capacity :=
  Nat.mod_lt _ hc

theorem probePos_inj {s : HT} {k : List Nat} {j j2 : Nat}
    (hj : j < s.capacity) (hj2 : j2 < s.capacity)
    (h : probePos s k j = probePos s k j2) : j = j2 := by
  unfold probePos at h
  have hmod : j % s.capacity = j2 % s.capacity :=
    Nat.ModEq.add_left_cancel' (dht_hash k) h
  rwa [Nat.mod_eq_of_lt hj, Nat.mod_eq_of_lt hj2] at hmod

theorem exists_probe_offset {s : HT} (hc : 0 < s.capacity) (k : List Nat) {pe : Nat}
    (hpe : pe < s.capacity) : ∃ j, j < s.capacity ∧ probePos s k j = pe := by
  have hmlt : dht_hash k % s.capacity < s.capacity := Nat.mod_lt _ hc
  by_cases hle : dht_hash k % s.capacity ≤ pe
  · refine ⟨pe - dht_hash k % s.capacity, by omega, ?_⟩
    unfold probePos
    rw [Nat.add_mod]
    rw [Nat.mod_eq_of_lt (show pe - dht_hash k % s.capacity < s.capacity by omega)]
    rw [show dht_hash k % s.capacity + (pe - dht_hash k % s.capacity) = pe by omega]
    exact Nat.mod_eq_of_lt hpe
  · refine ⟨s.capacity + pe - dht_hash k % s.capacity, by omega, ?_⟩
    unfold probePos
    rw [Nat.add_mod]
    rw [Nat.mod_eq_of_lt (show s.capacity + pe - dht_hash k % s.capacity < s.capacity by omega)]
    rw [show dht_hash k % s.capacity + (s.capacity + pe - dht_hash k % s.capacity) =
      s.capacity + pe by omega]
    rw [Nat.add_mod_left]
    exact Nat.mod_eq_of_lt hpe

/-! ### Probe engine lemmas -/

theorem probeFind_zero (s : HT) (k : List Nat) (j : Nat) :
    probeFind s k 0 j = .exhausted := rfl

theorem probeFind_succ (s : HT) (k : List Nat) (fuel j : Nat) :
    probeFind s k (fuel + 1) j =
      match s.buckets (probePos s k j) with
      | .empty => .notfound
      | .tomb => probeFind s k fuel (j + 1)
      | .ref i =>
        if (s.store (i - 1)).key = k then .found (probePos s k j) (i - 1)
        else probeFind s k fuel (j + 1) := rfl

theorem probeFind_found_sound {s : HT} {k : List Nat} :
    ∀ fuel j p idx, probeFind s k fuel j = .found p idx →
      ∃ j2 i, j ≤ j2 ∧ j2 < j + fuel ∧ p = probePos s k j2 ∧
        s.buckets p = Bucket.ref i ∧ idx = i - 1 ∧ (s.store (i - 1)).key = k := by
  intro fuel
  induction fuel with
  | zero => intro j p idx h; rw [probeFind_zero] at h; exact absurd h (by simp)
  | succ n ih =>
    intro j p idx h
    rw [probeFind_succ] at h
    cases hb : s.buckets (probePos s k j) with
    | empty => rw [hb] at h; exact absurd h (by simp)
    | tomb =>
      rw [hb] at h
      obtain ⟨j2, i, h1, h2, h3⟩ := ih (j + 1) p idx h
      exact ⟨j2, i, by omega, by omega, h3⟩
    | ref i =>
      rw [hb] at h
      have h4 : (if (s.store (i - 1)).key = k then ProbeRes.found (probePos s k j) (i - 1)
          else probeFind s k n (j + 1)) = ProbeRes.found p idx := h
      by_cases hk : (s.store (i - 1)).key = k
      · rw [if_pos hk] at h4
        simp only [ProbeRes.found.injEq] at h4
        obtain ⟨hp, hidx⟩ := h4
        exact ⟨j, i, le_refl _, by omega, hp.symm, hp ▸ hb, hidx.symm, hk⟩
      · rw [if_neg hk] at h4
        obtain ⟨j2, i2, h1, h2, h3⟩ := ih (j + 1) p idx h4
        exact ⟨j2, i2, by omega, by omega, h3⟩

theorem probeFind_reach {s : HT} {k : List Nat} {jt i : Nat}
    (hb : s.buckets (probePos s k jt) = Bucket.ref i)
    (hkey : (s.store (i - 1)).key = k)
    (hpre : ∀ j2, j2 < jt → s.buckets (probePos s k j2) ≠ Bucket.empty ∧
      ∀ i2, s.buckets (probePos s k j2) = Bucket.ref i2 → (s.store (i2 - 1)).key ≠ k) :
    ∀ fuel j0, j0 ≤ jt → jt < j0 + fuel →
      probeFind s k fuel j0 = .found (probePos s k jt) (i - 1) := by
  intro fuel
  induction fuel with
  | zero => intro j0 h1 h2; omega
  | succ n ih =>
    intro j0 h1 h2
    rw [probeFind_succ]
    by_cases hj : j0 = jt
    · subst hj
      rw [hb]
      exact if_pos hkey
    · have hlt : j0 < jt := by omega
      obtain ⟨hne, hnk⟩ := hpre j0 hlt
      cases hbj : s.buckets (probePos s k j0) with
      | empty => exact absurd hbj hne
      | tomb =>
        exact ih (j0 + 1) (by omega) (by omega)
      | ref i2 =>
        exact (if_neg (hnk i2 hbj)).trans (ih (j0 + 1) (by omega) (by omega))

theorem probeFind_ne_exhausted {s : HT} {k : List Nat} :
    ∀ fuel j0, (∃ j, j0 ≤ j ∧ j < j0 + fuel ∧ s.buckets (probePos s k j) = Bucket.empty) →
      probeFind s k fuel j0 ≠ .exhausted := by
  intro fuel
  induction fuel with
  | zero => intro j0 ⟨j, h1, h2, _⟩; omega
  | succ n ih =>
    intro j0 ⟨j, h1, h2, hj⟩
    rw [probeFind_succ]
    cases hbj : s.buckets (probePos s k j0) with
    | empty => simp
    | tomb =>
      refine ih (j0 + 1) ⟨j, ?_, by omega, hj⟩
      rcases Nat.eq_or_lt_of_le h1 with h | h
      · exact absurd hbj (by rw [← h] at hj; rw [hj]; simp)
      · omega
    | ref i =>
      show (if (s.store (i - 1)).key = k then ProbeRes.found (probePos s k j0) (i - 1)
          else probeFind s k n (j0 + 1)) ≠ ProbeRes.exhausted
      by_cases hk : (s.store (i - 1)).key = k
      · rw [if_pos hk]; simp
      · rw [if_neg hk]
        refine ih (j0 + 1) ⟨j, ?_, by omega, hj⟩
        rcases Nat.eq_or_lt_of_le h1 with h | h
        · exact absurd hbj (by rw [← h] at hj; rw [hj]; simp)
        · omega

/-- Key k is live at bucket position p holding the 1-based reference i. -/
def liveAt (s : HT) (k : List Nat) (p i : Nat) : Prop :=
  p < s.capacity ∧ s.buckets p = Bucket.ref i ∧ (s.store (i - 1)).key = k

/-- Key k is referenced by some live primary bucket. -/
def isLive (s : HT) (k : List Nat) : Prop :=
  ∃ p i, liveAt s k p i

theorem liveAt_unique {s : HT} {k : List Nat} {p i q j : Nat} (hInv : HTInv s)
    (h1 : liveAt s k p i) (h2 : liveAt s k q j) : p = q ∧ i = j := by
  obtain ⟨hp, hbp, hkp⟩ := h1
  obtain ⟨hq, hbq, hkq⟩ := h2
  have hpq : p = q := hInv.uniq p q i j hp hq hbp hbq (by rw [hkp, hkq])
  refine ⟨hpq, ?_⟩
  rw [hpq, hbq] at hbp
  exact (Bucket.ref.injEq _ _).mp hbp.symm

theorem liveAt_probe_data {s : HT} {k : List Nat} {p i : Nat} (hInv : HTInv s)
    (hlive : liveAt s k p i) :
    ∃ jt, jt < s.capacity ∧ p = probePos s k jt ∧
      (∀ j2, j2 < jt → s.buckets (probePos s k j2) ≠ Bucket.empty ∧
        ∀ i2, s.buckets (probePos s k j2) = Bucket.ref i2 → (s.store (i2 - 1)).key ≠ k) := by
  obtain ⟨hp, hbp, hkp⟩ := hlive
  obtain ⟨jt, hjt, hpos, hpre⟩ := hInv.path p hp i hbp
  rw [hkp] at hpos hpre
  refine ⟨jt, hjt, hpos, fun j2 hj2 => ⟨hpre j2 hj2, fun i2 hb2 hk2 => ?_⟩⟩
  have hlive2 : liveAt s k (probePos s k j2) i2 :=
    ⟨probePos_lt hInv.cap_pos k j2, hb2, hk2⟩
  have hlive1 : liveAt s k p i := ⟨hp, hbp, hkp⟩
  obtain ⟨heq, _⟩ := liveAt_unique hInv hlive2 hlive1
  rw [hpos] at heq
  have := probePos_inj (show j2 < s.capacity by omega) hjt heq
  omega

theorem lookup_of_liveAt {s : HT} {k : List Nat} {p i : Nat} (hInv : HTInv s)
    (hlive : liveAt s k p i) :
    dht_lookup s k = some ((s.store (i - 1)).payload) := by
  obtain ⟨jt, hjt, hpos, hpre⟩ := liveAt_probe_data hInv hlive
  obtain ⟨hp, hbp, hkp⟩ := hlive
  have hfind : probeFind s k s.capacity 0 = .found (probePos s k jt) (i - 1) :=
    probeFind_reach (hpos ▸ hbp) hkp hpre s.capacity 0 (by omega) (by omega)
  unfold dht_lookup
  rw [hfind]

theorem lookup_of_not_live {s : HT} {k : List Nat} (hInv : HTInv s)
    (hnl : ¬ isLive s k) : dht_lookup s k = none := by
  unfold dht_lookup
  cases hres : probeFind s k s.capacity 0 with
  | found p idx =>
    obtain ⟨j2, i, _, _, hp, hb, _, hk⟩ := probeFind_found_sound s.capacity 0 p idx hres
    exact absurd ⟨p, i, hp ▸ probePos_lt hInv.cap_pos k j2, hb, hk⟩ hnl
  | notfound => rfl
  | exhausted => rfl

theorem lookup_isSome_iff {s : HT} {k : List Nat} (hInv : HTInv s) :
    (dht_lookup s k).isSome = true ↔ isLive s k := by
  constructor
  · intro h
    by_contra hnl
    rw [lookup_of_not_live hInv hnl] at h
    simp at h
  · intro ⟨p, i, hlive⟩
    rw [lookup_of_liveAt hInv hlive]
    rfl

theorem probeFind_top_ne_exhausted {s : HT} (hInv : HTInv s) (k : List Nat) :
    probeFind s k s.capacity 0 ≠ .exhausted := by
  obtain ⟨pe, hpe, hb⟩ := hInv.exists_empty
  obtain ⟨j, hj, hjp⟩ := exists_probe_offset hInv.cap_pos k hpe
  exact probeFind_ne_exhausted s.capacity 0 ⟨j, by omega, by omega, by rw [hjp]; exact hb⟩

theorem probeFind_top_of_liveAt {s : HT} {k : List Nat} {p i : Nat} (hInv : HTInv s)
    (hlive : liveAt s k p i) : probeFind s k s.capacity 0 = .found p (i - 1) := by
  obtain ⟨jt, hjt, hpos, hpre⟩ := liveAt_probe_data hInv hlive
  have := probeFind_reach (hpos ▸ hlive.2.1) hlive.2.2 hpre s.capacity 0 (by omega) (by omega)
  rw [← hpos] at this
  exact this

theorem probeFind_top_found_liveAt {s : HT} {k : List Nat} {p idx : Nat} (hInv : HTInv s)
    (h : probeFind s k s.capacity 0 = .found p idx) :
    liveAt s k p (idx + 1) ∧ idx + 1 ≤ s.cursor := by
  obtain ⟨j2, i, _, _, hp, hb, hidx, hk⟩ := probeFind_found_sound s.capacity 0 p idx h
  have hplt : p < s.capacity := hp ▸ probePos_lt hInv.cap_pos k j2
  obtain ⟨hi1, hi2⟩ := hInv.ref_pos p hplt i hb
  have hii : idx + 1 = i := by omega
  rw [hii]
  exact ⟨⟨hplt, hb, hk⟩, by omega⟩

theorem probeInsert_zero (s : HT) (k : List Nat) (tr : Option Nat) (j : Nat) :
    probeInsert s k tr 0 j = .overflow := rfl

theorem probeInsert_succ (s : HT) (k : List Nat) (tr : Option Nat) (fuel j : Nat) :
    probeInsert s k tr (fuel + 1) j =
      match s.buckets (probePos s k j) with
      | .empty =>
        match tr with
        | some t => .place t true
        | none => .place (probePos s k j) false
      | .tomb => probeInsert s k (some (tr.getD (probePos s k j))) fuel (j + 1)
      | .ref i =>
        if (s.store (i - 1)).key = k then .dup
        else probeInsert s k tr fuel (j + 1) := rfl

theorem probeInsert_dup_sound {s : HT} {k : List Nat} :
    ∀ fuel tr j, probeInsert s k tr fuel j = .dup →
      ∃ j2 i, j ≤ j2 ∧ j2 < j + fuel ∧ s.buckets (probePos s k j2) = Bucket.ref i ∧
        (s.store (i - 1)).key = k := by
  intro fuel
  induction fuel with
  | zero => intro tr j h; exact absurd h (by rw [probeInsert_zero]; simp)
  | succ n ih =>
    intro tr j h
    rw [probeInsert_succ] at h
    cases hb : s.buckets (probePos s k j) with
    | empty =>
      rw [hb] at h
      cases tr with
      | some t => exact absurd (show InsProbe.place t true = InsProbe.dup from h) (by simp)
      | none =>
        exact absurd (show InsProbe.place (probePos s k j) false = InsProbe.dup from h) (by simp)
    | tomb =>
      rw [hb] at h
      obtain ⟨j2, i, h1, h2, h3, h4⟩ := ih _ (j + 1) h
      exact ⟨j2, i, by omega, by omega, h3, h4⟩
    | ref i =>
      rw [hb] at h
      have h4 : (if (s.store (i - 1)).key = k then InsProbe.dup
          else probeInsert s k tr n (j + 1)) = InsProbe.dup := h
      by_cases hk : (s.store (i - 1)).key = k
      · exact ⟨j, i, le_refl _, by omega, hb, hk⟩
      · rw [if_neg hk] at h4
        obtain ⟨j2, i2, h1, h2, h3, h5⟩ := ih _ (j + 1) h4
        exact ⟨j2, i2, by omega, by omega, h3, h5⟩

theorem probeInsert_reach_dup {s : HT} {k : List Nat} {jt i : Nat}
    (hb : s.buckets (probePos s k jt) = Bucket.ref i)
    (hkey : (s.store (i - 1)).key = k)
    (hpre : ∀ j2, j2 < jt → s.buckets (probePos s k j2) ≠ Bucket.empty ∧
      ∀ i2, s.buckets (probePos s k j2) = Bucket.ref i2 → (s.store (i2 - 1)).key ≠ k) :
    ∀ fuel tr j0, j0 ≤ jt → jt < j0 + fuel → probeInsert s k tr fuel j0 = .dup := by
  intro fuel
  induction fuel with
  | zero => intro tr j0 h1 h2; omega
  | succ n ih =>
    intro tr j0 h1 h2
    rw [probeInsert_succ]
    by_cases hj : j0 = jt
    · subst hj
      rw [hb]
      exact if_pos hkey
    · obtain ⟨hne, hnk⟩ := hpre j0 (by omega)
      cases hbj : s.buckets (probePos s k j0) with
      | empty => exact absurd hbj hne
      | tomb => exact ih _ (j0 + 1) (by omega) (by omega)
      | ref i2 => exact (if_neg (hnk i2 hbj)).trans (ih _ (j0 + 1) (by omega) (by omega))

theorem probeInsert_dup_of_live {s : HT} {k : List Nat} (hInv : HTInv s)
    (hl : isLive s k) (tr : Option Nat) : probeInsert s k tr s.capacity 0 = .dup := by
  obtain ⟨p, i, hlive⟩ := hl
  obtain ⟨jt, hjt, hpos, hpre⟩ := liveAt_probe_data hInv hlive
  exact probeInsert_reach_dup (hpos ▸ hlive.2.1) hlive.2.2 hpre s.capacity tr 0 (by omega)
    (by omega)

theorem probeInsert_ne_overflow {s : HT} {k : List Nat} :
    ∀ fuel tr j0, (∃ j, j0 ≤ j ∧ j < j0 + fuel ∧ s.buckets (probePos s k j) = Bucket.empty) →
      probeInsert s k tr fuel j0 ≠ .overflow := by
  intro fuel
  induction fuel with
  | zero => intro tr j0 ⟨j, h1, h2, _⟩; omega
  | succ n ih =>
    intro tr j0 ⟨j, h1, h2, hj⟩
    rw [probeInsert_succ]
    cases hbj : s.buckets (probePos s k j0) with
    | empty =>
      cases tr with
      | some t => simp
      | none => simp
    | tomb =>
      refine ih _ (j0 + 1) ⟨j, ?_, by omega, hj⟩
      rcases Nat.eq_or_lt_of_le h1 with h | h
      · exact absurd hbj (by rw [← h] at hj; rw [hj]; simp)
      · omega
    | ref i =>
      show (if (s.store (i - 1)).key = k then InsProbe.dup
          else probeInsert s k tr n (j0 + 1)) ≠ InsProbe.overflow
      by_cases hk : (s.store (i - 1)).key = k
      · rw [if_pos hk]; simp
      · rw [if_neg hk]
        refine ih _ (j0 + 1) ⟨j, ?_, by omega, hj⟩
        rcases Nat.eq_or_lt_of_le h1 with h | h
        · exact absurd hbj (by rw [← h] at hj; rw [hj]; simp)
        · omega

theorem probeInsert_top_ne_overflow {s : HT} {k : List Nat} (hInv : HTInv s) (tr : Option Nat) :
    probeInsert s k tr s.capacity 0 ≠ .overflow := by
  obtain ⟨pe, hpe, hb⟩ := hInv.exists_empty
  obtain ⟨j, hj, hjp⟩ := exists_probe_offset hInv.cap_pos k hpe
  exact probeInsert_ne_overflow s.capacity tr 0 ⟨j, by omega, by omega, by rw [hjp]; exact hb⟩

theorem probeInsert_place_sound {s : HT} {k : List Nat} :
    ∀ fuel tr j0 pos reused, probeInsert s k tr fuel j0 = .place pos reused →
      ∃ je, j0 ≤ je ∧ je < j0 + fuel ∧ s.buckets (probePos s k je) = Bucket.empty ∧
        (∀ j2, j0 ≤ j2 → j2 < je →
          s.buckets (probePos s k j2) ≠ Bucket.empty ∧
          ∀ i2, s.buckets (probePos s k j2) = Bucket.ref i2 → (s.store (i2 - 1)).key ≠ k) ∧
        ((reused = false ∧ tr = none ∧ pos = probePos s k je) ∨
          (reused = true ∧ (tr = some pos ∨
            (tr = none ∧ ∃ jt, j0 ≤ jt ∧ jt < je ∧ pos = probePos s k jt ∧
              s.buckets pos = Bucket.tomb)))) := by
  intro fuel
  induction fuel with
  | zero => intro tr j0 pos reused h; exact absurd h (by rw [probeInsert_zero]; simp)
  | succ n ih =>
    intro tr j0 pos reused h
    rw [probeInsert_succ] at h
    cases hb : s.buckets (probePos s k j0) with
    | empty =>
      rw [hb] at h
      cases tr with
      | some t =>
        have h2 : InsProbe.place t true = InsProbe.place pos reused := h
        simp only [InsProbe.place.injEq] at h2
        obtain ⟨hpos, hreused⟩ := h2
        refine ⟨j0, le_refl _, by omega, hb, fun j2 ha hb2 => by omega, ?_⟩
        right
        exact ⟨hreused.symm, Or.inl (by rw [hpos]), ⟩
      | none =>
        have h2 : InsProbe.place (probePos s k j0) false = InsProbe.place pos reused := h
        simp only [InsProbe.place.injEq] at h2
        obtain ⟨hpos, hreused⟩ := h2
        refine ⟨j0, le_refl _, by omega, hb, fun j2 ha hb2 => by omega, ?_⟩
        left
        exact ⟨hreused.symm, rfl, hpos.symm⟩
    | tomb =>
      rw [hb] at h
      have h2 : probeInsert s k (some (Option.getD tr (probePos s k j0))) n (j0 + 1) =
          InsProbe.place pos reused := h
      obtain ⟨je, hje1, hje2, hempty, hscan, hdisj⟩ := ih _ (j0 + 1) pos reused h2
      refine ⟨je, by omega, by omega, hempty, ?_, ?_⟩
      · intro j2 ha hb2
        rcases Nat.eq_or_lt_of_le ha with hqe | hlt
        · refine ⟨?_, ?_⟩
          · rw [← hqe, hb]; simp
          · intro i2 hbi2
            rw [← hqe, hb] at hbi2
            exact absurd hbi2 (by simp)
        · exact hscan j2 hlt hb2
      · rcases hdisj with ⟨hr, htr, hp⟩ | ⟨hr, hcase⟩
        · exact absurd htr (by simp)
        · right
          refine ⟨hr, ?_⟩
          rcases hcase with hsome | ⟨hnone, _⟩
          · injection hsome with hps
            cases tr with
            | some t =>
              left
              simp only [Option.getD] at hps
              rw [hps]
            | none =>
              right
              simp only [Option.getD] at hps
              refine ⟨rfl, j0, le_refl _, by omega, hps.symm, ?_⟩
              rw [← hps]
              exact hb
          · exact absurd hnone (by simp)
    | ref i =>
      rw [hb] at h
      have h2 : (if (s.store (i - 1)).key = k then InsProbe.dup
          else probeInsert s k tr n (j0 + 1)) = InsProbe.place pos reused := h
      by_cases hk : (s.store (i - 1)).key = k
      · rw [if_pos hk] at h2
        exact absurd h2 (by simp)
      · rw [if_neg hk] at h2
        obtain ⟨je, hje1, hje2, hempty, hscan, hdisj⟩ := ih _ (j0 + 1) pos reused h2
        refine ⟨je, by omega, by omega, hempty, ?_, ?_⟩
        · intro j2 ha hb2
          rcases Nat.eq_or_lt_of_le ha with hqe | hlt
          · refine ⟨?_, ?_⟩
            · rw [← hqe, hb]; simp
            · intro i2 hbi2
              rw [← hqe, hb] at hbi2
              injection hbi2 with hii
              rw [← hii]
              exact hk
          · exact hscan j2 hlt hb2
        · rcases hdisj with ⟨hr, htr, hp⟩ | ⟨hr, hcase⟩
          · exact Or.inl ⟨hr, htr, hp⟩
          · right
            refine ⟨hr, ?_⟩
            rcases hcase with hsome | ⟨hnone, jt, hjt1, hjt2, hp, htb⟩
            · exact Or.inl hsome
            · exact Or.inr ⟨hnone, jt, by omega, by omega, hp, htb⟩

theorem probeInsert_place_top {s : HT} {k : List Nat} {pos : Nat} {reused : Bool}
    (hInv : HTInv s)
    (h : probeInsert s k none s.capacity 0 = .place pos reused) :
    ∃ jpos, jpos < s.capacity ∧ pos = probePos s k jpos ∧
      (∀ j2, j2 < jpos → s.buckets (probePos s k j2) ≠ Bucket.empty) ∧
      (reused = true → s.buckets pos = Bucket.tomb) ∧
      (reused = false → s.buckets pos = Bucket.empty) ∧
      ¬ isLive s k := by
  obtain ⟨je, _, hje2, hempty, hscan, hdisj⟩ :=
    probeInsert_place_sound s.capacity none 0 pos reused h
  have hnl : ¬ isLive s k := by
    rintro ⟨p, i, hlive⟩
    obtain ⟨hp, hbp, hkp⟩ := hlive
    obtain ⟨jk, hjkcap, hpk, hpkpre⟩ := hInv.path p hp i hbp
    rw [hkp] at hpk hpkpre
    rcases lt_trichotomy jk je with hlt | heq | hgt
    · obtain ⟨_, hnoref⟩ := hscan jk (by omega) hlt
      exact hnoref i (by rw [← hpk]; exact hbp) hkp
    · rw [heq] at hpk
      rw [hpk, hempty] at hbp
      simp at hbp
    · exact hpkpre je hgt hempty
  rcases hdisj with ⟨hr, _, hp⟩ | ⟨hr, hcase⟩
  · refine ⟨je, by omega, hp, fun j2 hj2 => (hscan j2 (by omega) hj2).1, ?_, ?_, hnl⟩
    · rw [hr]; simp
    · intro _
      rw [hp]
      exact hempty
  · rcases hcase with hsome | ⟨_, jt, hjt0, hjtlt, hp, htb⟩
    · exact absurd hsome (by simp)
    · refine ⟨jt, by omega, hp, fun j2 hj2 => (hscan j2 (by omega) (by omega)).1, fun _ => htb,
        ?_, hnl⟩
      rw [hr]; simp

/-! ### Effects of placing a new entry -/

theorem placeNew_buckets (s : HT) (k v : List Nat) (pos : Nat) (r : Bool) (q : Nat) :
    (placeNew s k v pos r).buckets q =
      if q = pos then Bucket.ref (s.cursor + 1) else s.buckets q := rfl

theorem placeNew_store (s : HT) (k v : List Nat) (pos : Nat) (r : Bool) (j : Nat) :
    (placeNew s k v pos r).store j =
      if j = s.cursor then { key := k, payload := v } else s.store j := rfl

theorem probePos_congr {s s2 : HT} (hcap : s2.capacity = s.capacity) (q : List Nat) (j : Nat) :
    probePos s2 q j = probePos s q j := by
  unfold probePos
  rw [hcap]

theorem countB_update_same (cap p0 : Nat) (b : Nat → Bucket) (v : Bucket) (f : Bucket → Bool)
    (hp : p0 < cap) (hsame : f (b p0) = f v) :
    countB cap (fun p => if p = p0 then v else b p) f = countB cap b f := by
  have hcb := countB_update cap p0 b v f hp
  rw [hsame] at hcb
  omega

theorem countB_update_up (cap p0 : Nat) (b : Nat → Bucket) (v : Bucket) (f : Bucket → Bool)
    (hp : p0 < cap) (hold : f (b p0) = false) (hnew : f v = true) :
    countB cap (fun p => if p = p0 then v else b p) f = countB cap b f + 1 := by
  have hcb := countB_update cap p0 b v f hp
  rw [hold, hnew] at hcb
  simp at hcb
  omega

theorem countB_update_down (cap p0 : Nat) (b : Nat → Bucket) (v : Bucket) (f : Bucket → Bool)
    (hp : p0 < cap) (hold : f (b p0) = true) (hnew : f v = false) :
    countB cap (fun p => if p = p0 then v else b p) f + 1 = countB cap b f := by
  have hcb := countB_update cap p0 b v f hp
  rw [hold, hnew] at hcb
  simp at hcb
  omega

theorem placeNew_inv {s : HT} {k v : List Nat} {pos : Nat} {reused : Bool}
    (hInv : HTInv s)
    (h : probeInsert s k none s.capacity 0 = .place pos reused)
    (hroom : s.slots_used + 1 ≤ 3 * s.capacity / 4) :
    HTInv (placeNew s k v pos reused) := by
  obtain ⟨jpos, hjpos, hppos, hpre, htomb, hempty, hnl⟩ := probeInsert_place_top hInv h
  have hposlt : pos < s.capacity := by
    rw [hppos]
    exact probePos_lt hInv.cap_pos k jpos
  have hposnotref : ∀ i, s.buckets pos ≠ Bucket.ref i := by
    intro i hcon
    cases reused with
    | false => rw [hempty rfl] at hcon; exact absurd hcon (by simp)
    | true => rw [htomb rfl] at hcon; exact absurd hcon (by simp)
  have hstore_old : ∀ i, 1 ≤ i → i ≤ s.cursor →
      ((placeNew s k v pos reused).store (i - 1)).key = (s.store (i - 1)).key := by
    intro i h1 h2
    rw [placeNew_store, if_neg (by omega)]
  refine ⟨hInv.cap8, ?_, ?_, ?_, ?_, ?_, ?_⟩
  · show (if reused then s.slots_used else s.slots_used + 1) =
      countB s.capacity (placeNew s k v pos reused).buckets Bucket.nonEmpty
    cases reused with
    | true =>
      rw [if_pos rfl]
      rw [show (placeNew s k v pos true).buckets =
        fun p => if p = pos then Bucket.ref (s.cursor + 1) else s.buckets p from rfl]
      rw [countB_update_same s.capacity pos s.buckets (Bucket.ref (s.cursor + 1)) Bucket.nonEmpty
        hposlt (by rw [htomb rfl]; rfl)]
      exact hInv.used_eq
    | false =>
      rw [if_neg (by simp)]
      rw [show (placeNew s k v pos false).buckets =
        fun p => if p = pos then Bucket.ref (s.cursor + 1) else s.buckets p from rfl]
      rw [countB_update_up s.capacity pos s.buckets (Bucket.ref (s.cursor + 1)) Bucket.nonEmpty
        hposlt (by rw [hempty rfl]; rfl) rfl]
      rw [hInv.used_eq]
  · show s.size + 1 = countB s.capacity (placeNew s k v pos reused).buckets Bucket.isRef
    rw [show (placeNew s k v pos reused).buckets =
      fun p => if p = pos then Bucket.ref (s.cursor + 1) else s.buckets p from rfl]
    have hold : Bucket.isRef (s.buckets pos) = false := by
      cases hb : s.buckets pos with
      | empty => rfl
      | tomb => rfl
      | ref i => exact absurd hb (hposnotref i)
    rw [countB_update_up s.capacity pos s.buckets (Bucket.ref (s.cursor + 1)) Bucket.isRef
      hposlt hold rfl]
    rw [hInv.size_eq]
  · show (if reused then s.slots_used else s.slots_used + 1) ≤ 3 * s.capacity / 4
    cases reused with
    | true => rw [if_pos rfl]; omega
    | false => rw [if_neg (by simp)]; omega
  · intro p hp i hrep
    rw [placeNew_buckets] at hrep
    show 1 ≤ i ∧ i ≤ s.cursor + 1
    by_cases hpp : p = pos
    · rw [if_pos hpp] at hrep
      injection hrep with hi
      omega
    · rw [if_neg hpp] at hrep
      have := hInv.ref_pos p hp i hrep
      omega
  · intro p q i j hp hq hbp hbq hkey
    rw [placeNew_buckets] at hbp hbq
    by_cases hpp : p = pos <;> by_cases hqq : q = pos
    · rw [hpp, hqq]
    · rw [if_pos hpp] at hbp
      rw [if_neg hqq] at hbq
      injection hbp with hi
      obtain ⟨hj1, hj2⟩ := hInv.ref_pos q hq j hbq
      rw [← hi] at hkey
      rw [show ((placeNew s k v pos reused).store (s.cursor + 1 - 1)).key = k by
        rw [placeNew_store, if_pos (by omega)]] at hkey
      rw [hstore_old j hj1 hj2] at hkey
      exact absurd ⟨q, j, hq, hbq, hkey.symm⟩ hnl
    · rw [if_neg hpp] at hbp
      rw [if_pos hqq] at hbq
      injection hbq with hj
      obtain ⟨hi1, hi2⟩ := hInv.ref_pos p hp i hbp
      rw [← hj] at hkey
      rw [show ((placeNew s k v pos reused).store (s.cursor + 1 - 1)).key = k by
        rw [placeNew_store, if_pos (by omega)]] at hkey
      rw [hstore_old i hi1 hi2] at hkey
      exact absurd ⟨p, i, hp, hbp, hkey⟩ hnl
    · rw [if_neg hpp] at hbp
      rw [if_neg hqq] at hbq
      obtain ⟨hi1, hi2⟩ := hInv.ref_pos p hp i hbp
      obtain ⟨hj1, hj2⟩ := hInv.ref_pos q hq j hbq
      rw [hstore_old i hi1 hi2, hstore_old j hj1 hj2] at hkey
      exact hInv.uniq p q i j hp hq hbp hbq hkey
  · intro p hp i hrep
    rw [placeNew_buckets] at hrep
    have hcap2 : (placeNew s k v pos reused).capacity = s.capacity := rfl
    by_cases hpp : p = pos
    · rw [if_pos hpp] at hrep
      injection hrep with hi
      have hkey2 : ((placeNew s k v pos reused).store (i - 1)).key = k := by
        rw [← hi, placeNew_store, if_pos (by omega)]
      refine ⟨jpos, hjpos, ?_, ?_⟩
      · rw [probePos_congr hcap2, hkey2, hpp, hppos]
      · intro j2 hj2
        rw [probePos_congr hcap2, hkey2]
        rw [placeNew_buckets]
        by_cases hpj : probePos s k j2 = pos
        · rw [if_pos hpj]; simp
        · rw [if_neg hpj]
          exact hpre j2 hj2
    · rw [if_neg hpp] at hrep
      obtain ⟨hi1, hi2⟩ := hInv.ref_pos p hp i hrep
      obtain ⟨jk, hjk, hpk, hprek⟩ := hInv.path p hp i hrep
      have hkey2 : ((placeNew s k v pos reused).store (i - 1)).key = (s.store (i - 1)).key :=
        hstore_old i hi1 hi2
      refine ⟨jk, hjk, ?_, ?_⟩
      · rw [probePos_congr hcap2, hkey2]
        exact hpk
      · intro j2 hj2
        rw [probePos_congr hcap2, hkey2]
        rw [placeNew_buckets]
        by_cases hpj : probePos s (s.store (i - 1)).key j2 = pos
        · rw [if_pos hpj]; simp
        · rw [if_neg hpj]
          exact hprek j2 hj2

theorem placeNew_lookup_self {s : HT} {k v : List Nat} {pos : Nat} {reused : Bool}
    (hInv : HTInv s)
    (h : probeInsert s k none s.capacity 0 = .place pos reused)
    (hroom : s.slots_used + 1 ≤ 3 * s.capacity / 4) :
    dht_lookup (placeNew s k v pos reused) k = some v := by
  obtain ⟨jpos, hjpos, hppos, hpre, htomb, hempty, hnl⟩ := probeInsert_place_top hInv h
  have hposlt : pos < s.capacity := by
    rw [hppos]
    exact probePos_lt hInv.cap_pos k jpos
  have hlive : liveAt (placeNew s k v pos reused) k pos (s.cursor + 1) := by
    refine ⟨hposlt, ?_, ?_⟩
    · rw [placeNew_buckets, if_pos rfl]
    · rw [placeNew_store, if_pos (by omega)]
  rw [lookup_of_liveAt (placeNew_inv hInv h hroom) hlive]
  rw [placeNew_store, if_pos (by omega)]

theorem placeNew_lookup_other {s : HT} {k v : List Nat} {pos : Nat} {reused : Bool}
    (hInv : HTInv s)
    (h : probeInsert s k none s.capacity 0 = .place pos reused)
    (hroom : s.slots_used + 1 ≤ 3 * s.capacity / 4)
    (q : List Nat) (hq : q ≠ k) :
    dht_lookup (placeNew s k v pos reused) q = dht_lookup s q := by
  obtain ⟨jpos, hjpos, hppos, hpre, htomb, hempty, hnl⟩ := probeInsert_place_top hInv h
  have hposlt : pos < s.capacity := by
    rw [hppos]
    exact probePos_lt hInv.cap_pos k jpos
  have hposnotref : ∀ i, s.buckets pos ≠ Bucket.ref i := by
    intro i hcon
    cases reused with
    | false => rw [hempty rfl] at hcon; exact absurd hcon (by simp)
    | true => rw [htomb rfl] at hcon; exact absurd hcon (by simp)
  have hInv2 := placeNew_inv (v := v) hInv h hroom
  by_cases hl : isLive s q
  · obtain ⟨pq, iq, hpq, hbq, hkq⟩ := hl
    have hpqpos : pq ≠ pos := by
      intro hcon
      rw [hcon] at hbq
      exact hposnotref iq hbq
    obtain ⟨hi1, hi2⟩ := hInv.ref_pos pq hpq iq hbq
    have hlive2 : liveAt (placeNew s k v pos reused) q pq iq := by
      refine ⟨hpq, ?_, ?_⟩
      · rw [placeNew_buckets, if_neg hpqpos]
        exact hbq
      · rw [placeNew_store, if_neg (by omega)]
        exact hkq
    rw [lookup_of_liveAt hInv2 hlive2, lookup_of_liveAt hInv ⟨hpq, hbq, hkq⟩]
    rw [placeNew_store, if_neg (by omega)]
  · have hnl2 : ¬ isLive (placeNew s k v pos reused) q := by
      rintro ⟨p2, i2, hp2, hb2, hk2⟩
      rw [placeNew_buckets] at hb2
      by_cases hpp : p2 = pos
      · rw [if_pos hpp] at hb2
        injection hb2 with hi
        rw [← hi] at hk2
        rw [placeNew_store, if_pos (by omega)] at hk2
        exact hq hk2.symm
      · rw [if_neg hpp] at hb2
        obtain ⟨hi1, hi2⟩ := hInv.ref_pos p2 hp2 i2 hb2
        rw [placeNew_store, if_neg (by omega)] at hk2
        exact hl ⟨p2, i2, hp2, hb2, hk2⟩
    rw [lookup_of_not_live hInv2 hnl2, lookup_of_not_live hInv hl]

/-! ### Update and delete -/

theorem inv_congr_store_keys {s s2 : HT}
    (hInv : HTInv s)
    (hcap : s2.capacity = s.capacity) (hbk : s2.buckets = s.buckets)
    (hused : s2.slots_used = s.slots_used) (hsize : s2.size = s.size)
    (hcur : s2.cursor = s.cursor)
    (hkeys : ∀ j, (s2.store j).key = (s.store j).key) : HTInv s2 := by
  refine ⟨?_, ?_, ?_, ?_, ?_, ?_, ?_⟩
  · rw [hcap]; exact hInv.cap8
  · rw [hcap, hbk, hused]; exact hInv.used_eq
  · rw [hcap, hbk, hsize]; exact hInv.size_eq
  · rw [hused, hcap]; exact hInv.used_bound
  · intro p hp i hrep
    rw [hcap] at hp
    rw [hbk] at hrep
    rw [hcur]
    exact hInv.ref_pos p hp i hrep
  · intro p q i j hp hq hbp hbq hkey
    rw [hcap] at hp hq
    rw [hbk] at hbp hbq
    rw [hkeys, hkeys] at hkey
    exact hInv.uniq p q i j hp hq hbp hbq hkey
  · intro p hp i hrep
    rw [hcap] at hp
    rw [hbk] at hrep
    obtain ⟨jk, hjk, hpk, hpre⟩ := hInv.path p hp i hrep
    refine ⟨jk, by rw [hcap]; exact hjk, ?_, ?_⟩
    · rw [probePos_congr hcap, hkeys]
      exact hpk
    · intro j2 hj2
      rw [probePos_congr hcap, hkeys, hbk]
      exact hpre j2 hj2

theorem dht_update_miss {s : HT} {k : List Nat} (v : List Nat) (hInv : HTInv s)
    (hro : s.readOnly = false) (hnl : ¬ isLive s k) :
    dht_update s k v = (0, s) := by
  unfold dht_update
  rw [hro]
  cases hres : probeFind s k s.capacity 0 with
  | found p idx =>
    obtain ⟨hlive, _⟩ := probeFind_top_found_liveAt hInv hres
    exact absurd ⟨p, idx + 1, hlive⟩ hnl
  | notfound => rfl
  | exhausted => rfl

theorem dht_update_hit {s : HT} {k v : List Nat} {p i : Nat}
    (hInv : HTInv s) (hro : s.readOnly = false) (hlive : liveAt s k p i) :
    (dht_update s k v).1 = 1 ∧
      HTInv (dht_update s k v).2 ∧
      dht_lookup (dht_update s k v).2 k = some v ∧
      (∀ q, q ≠ k → dht_lookup (dht_update s k v).2 q = dht_lookup s q) ∧
      (dht_update s k v).2.capacity = s.capacity ∧
      (dht_update s k v).2.slots_used = s.slots_used ∧
      (dht_update s k v).2.size = s.size ∧
      (dht_update s k v).2.cursor = s.cursor ∧
      (dht_update s k v).2.readOnly = s.readOnly := by
  have heq : dht_update s k v =
      (1, { s with store := fun j => if j = i - 1 then
        { key := (s.store (i - 1)).key, payload := v } else s.store j }) := by
    unfold dht_update
    rw [hro, probeFind_top_of_liveAt hInv hlive]
    rfl
  obtain ⟨hp, hbp, hkp⟩ := hlive
  obtain ⟨hi1, hi2⟩ := hInv.ref_pos p hp i hbp
  rw [heq]
  set s2 : HT := { s with store := fun j => if j = i - 1 then
    { key := (s.store (i - 1)).key, payload := v } else s.store j } with hs2
  have hkeys : ∀ j, (s2.store j).key = (s.store j).key := by
    intro j
    show (if j = i - 1 then Slot.mk (s.store (i - 1)).key v else s.store j).key = _
    by_cases hj : j = i - 1
    · rw [if_pos hj, hj]
    · rw [if_neg hj]
  have hInv2 : HTInv s2 := inv_congr_store_keys hInv rfl rfl rfl rfl rfl hkeys
  have hlive2 : liveAt s2 k p i := ⟨hp, hbp, by rw [hkeys]; exact hkp⟩
  refine ⟨rfl, hInv2, ?_, ?_, rfl, rfl, rfl, rfl, rfl⟩
  · rw [lookup_of_liveAt hInv2 hlive2]
    show some (if i - 1 = i - 1 then Slot.mk (s.store (i - 1)).key v else s.store (i - 1)).payload
      = some v
    rw [if_pos rfl]
  · intro q hq
    by_cases hl : isLive s q
    · obtain ⟨pq, iq, hpq, hbq, hkq⟩ := hl
      obtain ⟨hiq1, hiq2⟩ := hInv.ref_pos pq hpq iq hbq
      have hiqi : iq ≠ i := by
        intro hcon
        rw [hcon] at hkq
        rw [hkq] at hkp
        exact hq hkp
      have hslot : s2.store (iq - 1) = s.store (iq - 1) := by
        show (if iq - 1 = i - 1 then _ else s.store (iq - 1)) = s.store (iq - 1)
        rw [if_neg (by omega)]
      have hlive2q : liveAt s2 q pq iq := ⟨hpq, hbq, by rw [hslot]; exact hkq⟩
      rw [lookup_of_liveAt hInv2 hlive2q, lookup_of_liveAt hInv ⟨hpq, hbq, hkq⟩, hslot]
    · have hnl2 : ¬ isLive s2 q := by
        rintro ⟨p2, i2, hp2, hb2, hk2⟩
        rw [hkeys] at hk2
        exact hl ⟨p2, i2, hp2, hb2, hk2⟩
      rw [lookup_of_not_live hInv2 hnl2, lookup_of_not_live hInv hl]

theorem dht_delete_miss {s : HT} {k : List Nat} (hInv : HTInv s)
    (hro : s.readOnly = false) (hnl : ¬ isLive s k) :
    dht_delete s k = (0, s) := by
  unfold dht_delete
  rw [hro]
  cases hres : probeFind s k s.capacity 0 with
  | found p idx =>
    obtain ⟨hlive, _⟩ := probeFind_top_found_liveAt hInv hres
    exact absurd ⟨p, idx + 1, hlive⟩ hnl
  | notfound => rfl
  | exhausted => exact absurd hres (probeFind_top_ne_exhausted hInv k)

theorem dht_delete_hit {s : HT} {k : List Nat} {p i : Nat}
    (hInv : HTInv s) (hro : s.readOnly = false) (hlive : liveAt s k p i) :
    (dht_delete s k).1 = 1 ∧
      HTInv (dht_delete s k).2 ∧
      dht_lookup (dht_delete s k).2 k = none ∧
      (∀ q, q ≠ k → dht_lookup (dht_delete s k).2 q = dht_lookup s q) ∧
      (dht_delete s k).2.capacity = s.capacity ∧
      (dht_delete s k).2.slots_used = s.slots_used ∧
      (dht_delete s k).2.size = s.size - 1 ∧
      (dht_delete s k).2.cursor = s.cursor ∧
      (dht_delete s k).2.readOnly = s.readOnly := by
  obtain ⟨hp, hbp, hkp⟩ := hlive
  obtain ⟨hi1, hi2⟩ := hInv.ref_pos p hp i hbp
  have heq : dht_delete s k =
      (1, { s with
        buckets := fun q => if q = p then Bucket.tomb else s.buckets q,
        store := fun j => if j = i - 1 then
          { key := [], payload := (s.store (i - 1)).payload } else s.store j,
        size := s.size - 1 }) := by
    unfold dht_delete
    rw [hro, probeFind_top_of_liveAt hInv ⟨hp, hbp, hkp⟩]
    rfl
  rw [heq]
  set s2 : HT := { s with
    buckets := fun q => if q = p then Bucket.tomb else s.buckets q,
    store := fun j => if j = i - 1 then
      { key := [], payload := (s.store (i - 1)).payload } else s.store j,
    size := s.size - 1 } with hs2
  have hbucket2 : ∀ q, s2.buckets q = if q = p then Bucket.tomb else s.buckets q := fun _ => rfl
  have hstore2 : ∀ j, s2.store j = if j = i - 1 then
      { key := [], payload := (s.store (i - 1)).payload } else s.store j := fun _ => rfl
  have href_ne : ∀ q i2, q < s.capacity → q ≠ p → s.buckets q = Bucket.ref i2 → i2 ≠ i := by
    intro q i2 hqcap hqp hbq hcon
    rw [hcon] at hbq
    exact hqp (hInv.uniq q p i i hqcap hp hbq hbp rfl)
  have hInv2 : HTInv s2 := by
    refine ⟨hInv.cap8, ?_, ?_, hInv.used_bound, ?_, ?_, ?_⟩
    · show s.slots_used =
        countB s.capacity (fun q => if q = p then Bucket.tomb else s.buckets q) Bucket.nonEmpty
      rw [countB_update_same s.capacity p s.buckets Bucket.tomb Bucket.nonEmpty hp
        (by rw [hbp]; rfl)]
      exact hInv.used_eq
    · show s.size - 1 =
        countB s.capacity (fun q => if q = p then Bucket.tomb else s.buckets q) Bucket.isRef
      have hd := countB_update_down s.capacity p s.buckets Bucket.tomb Bucket.isRef hp
        (by rw [hbp]; rfl) rfl
      have hsz := hInv.size_eq
      omega
    · intro q hq i2 hrep
      rw [hbucket2] at hrep
      by_cases hqp : q = p
      · rw [if_pos hqp] at hrep
        exact absurd hrep (by simp)
      · rw [if_neg hqp] at hrep
        exact hInv.ref_pos q hq i2 hrep
    · intro q1 q2 i1 i2 hq1 hq2 hb1 hb2 hkey
      rw [hbucket2] at hb1 hb2
      by_cases hq1p : q1 = p
      · rw [if_pos hq1p] at hb1
        exact absurd hb1 (by simp)
      · by_cases hq2p : q2 = p
        · rw [if_pos hq2p] at hb2
          exact absurd hb2 (by simp)
        · rw [if_neg hq1p] at hb1
          rw [if_neg hq2p] at hb2
          obtain ⟨hi11, _⟩ := hInv.ref_pos q1 hq1 i1 hb1
          obtain ⟨hi21, _⟩ := hInv.ref_pos q2 hq2 i2 hb2
          have hne1 := href_ne q1 i1 hq1 hq1p hb1
          have hne2 := href_ne q2 i2 hq2 hq2p hb2
          rw [hstore2, hstore2, if_neg (by omega), if_neg (by omega)] at hkey
          exact hInv.uniq q1 q2 i1 i2 hq1 hq2 hb1 hb2 hkey
    · intro q hq i2 hrep
      rw [hbucket2] at hrep
      by_cases hqp : q = p
      · rw [if_pos hqp] at hrep
        exact absurd hrep (by simp)
      · rw [if_neg hqp] at hrep
        obtain ⟨hi21, _⟩ := hInv.ref_pos q hq i2 hrep
        have hne2 := href_ne q i2 hq hqp hrep
        have hslot : s2.store (i2 - 1) = s.store (i2 - 1) := by
          rw [hstore2, if_neg (by omega)]
        obtain ⟨jk, hjk, hpk, hpre⟩ := hInv.path q hq i2 hrep
        have hcap2 : s2.capacity = s.capacity := rfl
        refine ⟨jk, hjk, ?_, ?_⟩
        · rw [probePos_congr hcap2, hslot]
          exact hpk
        · intro j2 hj2
          rw [probePos_congr hcap2, hslot, hbucket2]
          by_cases hj2p : probePos s (s.store (i2 - 1)).key j2 = p
          · rw [if_pos hj2p]; simp
          · rw [if_neg hj2p]
            exact hpre j2 hj2
  have hnl2 : ¬ isLive s2 k := by
    rintro ⟨p2, i2, hp2, hb2, hk2⟩
    rw [hbucket2] at hb2
    by_cases hp2p : p2 = p
    · rw [if_pos hp2p] at hb2
      exact absurd hb2 (by simp)
    · rw [if_neg hp2p] at hb2
      have hne2 := href_ne p2 i2 hp2 hp2p hb2
      obtain ⟨hi21, _⟩ := hInv.ref_pos p2 hp2 i2 hb2
      rw [hstore2, if_neg (by omega)] at hk2
      obtain ⟨hpe, _⟩ := liveAt_unique hInv ⟨hp2, hb2, hk2⟩ ⟨hp, hbp, hkp⟩
      exact hp2p hpe
  refine ⟨rfl, hInv2, lookup_of_not_live hInv2 hnl2, ?_, rfl, rfl, rfl, rfl, rfl⟩
  intro q hq
  by_cases hl : isLive s q
  · obtain ⟨pq, iq, hpq, hbq, hkq⟩ := hl
    have hpqp : pq ≠ p := by
      intro hcon
      rw [hcon, hbp] at hbq
      injection hbq with hii
      rw [← hii] at hkq
      exact hq (hkq.symm.trans hkp)
    have hneq := href_ne pq iq hpq hpqp hbq
    obtain ⟨hiq1, _⟩ := hInv.ref_pos pq hpq iq hbq
    have hslot : s2.store (iq - 1) = s.store (iq - 1) := by
      rw [hstore2, if_neg (by omega)]
    have hlive2q : liveAt s2 q pq iq := by
      refine ⟨hpq, ?_, ?_⟩
      · rw [hbucket2, if_neg hpqp]
        exact hbq
      · rw [hslot]
        exact hkq
    rw [lookup_of_liveAt hInv2 hlive2q, lookup_of_liveAt hInv ⟨hpq, hbq, hkq⟩, hslot]
  · have hnl2q : ¬ isLive s2 q := by
      rintro ⟨p2, i2, hp2, hb2, hk2⟩
      rw [hbucket2] at hb2
      by_cases hp2p : p2 = p
      · rw [if_pos hp2p] at hb2
        exact absurd hb2 (by simp)
      · rw [if_neg hp2p] at hb2
        have hne2 := href_ne p2 i2 hp2 hp2p hb2
        obtain ⟨hi21, _⟩ := hInv.ref_pos p2 hp2 i2 hb2
        rw [hstore2, if_neg (by omega)] at hk2
        exact hl ⟨p2, i2, hp2, hb2, hk2⟩
    rw [lookup_of_not_live hInv2 hnl2q, lookup_of_not_live hInv hl]

/-! ### Rounding up to a power of two -/

theorem pow2geAux_ge (m : Nat) : ∀ fuel e, m ≤ 2 ^ (fuel + e) → m ≤ pow2geAux m fuel e := by
  intro fuel
  induction fuel with
  | zero => intro e h; rw [Nat.zero_add] at h; exact h
  | succ n ih =>
    intro e h
    show m ≤ if m ≤ 2 ^ e then 2 ^ e else pow2geAux m n (e + 1)
    by_cases hle : m ≤ 2 ^ e
    · rw [if_pos hle]; exact hle
    · rw [if_neg hle]
      exact ih (e + 1) (by rw [show n + (e + 1) = n + 1 + e by omega]; exact h)

theorem pow2geAux_pow (m : Nat) : ∀ fuel e, ∃ e2, pow2geAux m fuel e = 2 ^ e2 := by
  intro fuel
  induction fuel with
  | zero => intro e; exact ⟨e, rfl⟩
  | succ n ih =>
    intro e
    show ∃ e2, (if m ≤ 2 ^ e then 2 ^ e else pow2geAux m n (e + 1)) = 2 ^ e2
    by_cases hle : m ≤ 2 ^ e
    · rw [if_pos hle]; exact ⟨e, rfl⟩
    · rw [if_neg hle]; exact ih (e + 1)

theorem pow2geAux_min (m : Nat) : ∀ fuel e u, e ≤ u → m ≤ 2 ^ u → pow2geAux m fuel e ≤ 2 ^ u := by
  intro fuel
  induction fuel with
  | zero => intro e u he _; exact Nat.pow_le_pow_right (by norm_num) he
  | succ n ih =>
    intro e u he hm
    show (if m ≤ 2 ^ e then 2 ^ e else pow2geAux m n (e + 1)) ≤ 2 ^ u
    by_cases hle : m ≤ 2 ^ e
    · rw [if_pos hle]; exact Nat.pow_le_pow_right (by norm_num) he
    · rw [if_neg hle]
      have helt : 2 ^ e < 2 ^ u := by omega
      have : e < u := (Nat.pow_lt_pow_iff_right (by norm_num)).mp helt
      exact ih (e + 1) u (by omega) hm

theorem pow2ge_ge (m : Nat) : m ≤ pow2ge m :=
  pow2geAux_ge m m 0 (by
    rw [Nat.add_zero]
    exact Nat.le_of_lt (Nat.lt_two_pow m))

theorem pow2ge_pow (m : Nat) : ∃ e, pow2ge m = 2 ^ e :=
  pow2geAux_pow m m 0

theorem pow2ge_min (m u : Nat) (h : m ≤ 2 ^ u) : pow2ge m ≤ 2 ^ u :=
  pow2geAux_min m m 0 u (Nat.zero_le u) h

/-! ### Counting live store slots -/

/-- The 1-based reference held in a bucket, 0 when none. -/
def refIdx : Bucket → Nat
  | .ref i => i
  | _ => 0

theorem liveIdx_iff (s : HT) (j : Nat) :
    liveIdx s j = true ↔ ∃ p, p < s.capacity ∧ s.buckets p = Bucket.ref (j + 1) := by
  unfold liveIdx
  rw [List.any_eq_true]
  constructor
  · rintro ⟨p, hp, hd⟩
    exact ⟨p, List.mem_range.mp hp, of_decide_eq_true hd⟩
  · rintro ⟨p, hp, hb⟩
    exact ⟨p, List.mem_range.mpr hp, decide_eq_true hb⟩

theorem countB_eq_card_filter (cap : Nat) (b : Nat → Bucket) (f : Bucket → Bool) :
    countB cap b f = ((Finset.range cap).filter (fun p => f (b p) = true)).card := by
  unfold countB
  rw [Finset.card_filter]

theorem card_filter_range_eq_countP (n : Nat) (p : Nat → Bool) :
    ((Finset.range n).filter (fun j => p j = true)).card = (List.range n).countP p := by
  induction n with
  | zero => rfl
  | succ m ih =>
    rw [Finset.range_succ, List.range_succ, List.countP_append, Finset.filter_insert]
    by_cases hp : p m = true
    · rw [if_pos hp]
      rw [Finset.card_insert_of_not_mem (fun hmem => by
        have := Finset.mem_of_mem_filter m hmem
        simp at this)]
      rw [ih]
      have : [m].countP p = 1 := by simp [List.countP_cons, hp]
      omega
    · rw [if_neg hp]
      rw [ih]
      have : [m].countP p = 0 := by simp [List.countP_cons, hp]
      omega

theorem liveSlotCount_eq_size {s : HT} (hInv : HTInv s) :
    (List.range s.cursor).countP (fun j => liveIdx s j) = s.size := by
  rw [← card_filter_range_eq_countP]
  set A := (Finset.range s.cursor).filter (fun j => liveIdx s j = true) with hA
  set B := (Finset.range s.capacity).filter (fun p => Bucket.isRef (s.buckets p) = true) with hB
  have hsize : s.size = B.card := by
    rw [hInv.size_eq, countB_eq_card_filter]
  have hmaps : ∀ p ∈ B, refIdx (s.buckets p) - 1 ∈ A := by
    intro p hp
    obtain ⟨hpr, hpf⟩ := Finset.mem_filter.mp hp
    have hplt := Finset.mem_range.mp hpr
    cases hb : s.buckets p with
    | empty => rw [hb] at hpf; exact absurd hpf (by simp [Bucket.isRef])
    | tomb => rw [hb] at hpf; exact absurd hpf (by simp [Bucket.isRef])
    | ref i =>
      obtain ⟨hi1, hi2⟩ := hInv.ref_pos p hplt i hb
      refine Finset.mem_filter.mpr ⟨Finset.mem_range.mpr ?_, ?_⟩
      · show i - 1 < s.cursor
        omega
      · rw [liveIdx_iff]
        refine ⟨p, hplt, ?_⟩
        show s.buckets p = Bucket.ref (i - 1 + 1)
        rw [show i - 1 + 1 = i by omega]
        exact hb
  have hinj : Set.InjOn (fun p => refIdx (s.buckets p) - 1) B := by
    intro p hp q hq heq
    obtain ⟨hpr, hpf⟩ := Finset.mem_filter.mp hp
    obtain ⟨hqr, hqf⟩ := Finset.mem_filter.mp hq
    have hplt := Finset.mem_range.mp hpr
    have hqlt := Finset.mem_range.mp hqr
    cases hbp : s.buckets p with
    | empty => rw [hbp] at hpf; exact absurd hpf (by simp [Bucket.isRef])
    | tomb => rw [hbp] at hpf; exact absurd hpf (by simp [Bucket.isRef])
    | ref i =>
      cases hbq : s.buckets q with
      | empty => rw [hbq] at hqf; exact absurd hqf (by simp [Bucket.isRef])
      | tomb => rw [hbq] at hqf; exact absurd hqf (by simp [Bucket.isRef])
      | ref i2 =>
        obtain ⟨hi1, _⟩ := hInv.ref_pos p hplt i hbp
        obtain ⟨hi21, _⟩ := hInv.ref_pos q hqlt i2 hbq
        simp only [hbp, hbq] at heq
        have hii : i = i2 := by
          have h1 : refIdx (Bucket.ref i) = i := rfl
          have h2 : refIdx (Bucket.ref i2) = i2 := rfl
          rw [h1, h2] at heq
          omega
        rw [← hii] at hbq
        exact hInv.uniq p q i i hplt hqlt hbp hbq rfl
  have hsurj : Set.SurjOn (fun p => refIdx (s.buckets p) - 1) B A := by
    intro j hj
    obtain ⟨hjr, hjf⟩ := Finset.mem_filter.mp hj
    obtain ⟨p, hplt, hb⟩ := (liveIdx_iff s j).mp hjf
    refine ⟨p, ?_, ?_⟩
    · exact Finset.mem_filter.mpr ⟨Finset.mem_range.mpr hplt, by rw [hb]; rfl⟩
    · show refIdx (s.buckets p) - 1 = j
      rw [hb]
      show j + 1 - 1 = j
      omega
  have hle1 : B.card ≤ A.card := Finset.card_le_card_of_injOn _ hmaps hinj
  have hle2 : A.card ≤ B.card := Finset.card_le_card_of_surjOn _ hsurj
  omega

/-! ### The rehash fold -/

theorem findSome?_eq_none_of_all {α β : Type} (l : List α) (f : α → Option β)
    (h : ∀ a ∈ l, f a = none) : l.findSome? f = none :=
  List.findSome?_eq_none_iff.mpr h

theorem findSome?_eq_some_unique {α β : Type} (l : List α) (f : α → Option β)
    (a : α) (b : β) (ha : a ∈ l) (hfa : f a = some b)
    (huniq : ∀ x ∈ l, f x ≠ none → x = a) : l.findSome? f = some b := by
  induction l with
  | nil => exact absurd ha (by simp)
  | cons c rest ih =>
    rw [List.findSome?_cons]
    cases hfc : f c with
    | some w =>
      show some w = some b
      have hca : c = a := huniq c (by simp) (by rw [hfc]; simp)
      rw [hca, hfa] at hfc
      exact hfc.symm
    | none =>
      show rest.findSome? f = some b
      have hane : a ≠ c := by
        intro hcon
        rw [← hcon, hfa] at hfc
        exact absurd hfc (by simp)
      have ha2 : a ∈ rest := by
        rcases List.mem_cons.mp ha with h1 | h1
        · exact absurd h1 hane
        · exact h1
      exact ih ha2 (fun x hx hne => huniq x (List.mem_cons_of_mem c hx) hne)

/-- Lookup of key q among a list of old store-table slot indices (in order),
restricted to the live ones; used to state the rehash fold invariant. -/
def slotLookup (s : HT) (todo : List Nat) (q : List Nat) : Option (List Nat) :=
  todo.findSome? fun j =>
    if liveIdx s j = true ∧ (s.store j).key = q then some ((s.store j).payload) else none

theorem rehash_fold (s : HT) (cap2 : Nat) :
    ∀ todo : List Nat, ∀ t : HT,
      HTInv t → t.capacity = cap2 →
      (∀ p, p < cap2 → t.buckets p ≠ Bucket.tomb) →
      t.slots_used = t.size → t.cursor = t.size →
      t.size + todo.countP (fun j => liveIdx s j) ≤ 3 * cap2 / 4 →
      (∀ j ∈ todo, liveIdx s j = true → ¬ isLive t ((s.store j).key)) →
      (∀ j1 ∈ todo, ∀ j2 ∈ todo, j1 ≠ j2 → liveIdx s j1 = true → liveIdx s j2 = true →
        (s.store j1).key ≠ (s.store j2).key) →
      todo.Nodup →
      ∀ t2, t2 = todo.foldl
        (fun t4 j => if liveIdx s j then (insertRaw t4 (s.store j).key (s.store j).payload).2
          else t4) t →
      (HTInv t2 ∧ t2.capacity = cap2 ∧
        (∀ p, p < cap2 → t2.buckets p ≠ Bucket.tomb) ∧
        t2.slots_used = t2.size ∧ t2.cursor = t2.size ∧
        t2.size = t.size + todo.countP (fun j => liveIdx s j) ∧
        t2.readOnly = t.readOnly ∧
        (∀ q, dht_lookup t2 q = (slotLookup s todo q).or (dht_lookup t q))) := by
  intro todo
  induction todo with
  | nil =>
    intro t hInv hcap hnt hus hcur hroom hfresh hdist hnd t2 ht2
    rw [List.foldl_nil] at ht2
    subst ht2
    refine ⟨hInv, hcap, hnt, hus, hcur, by simp, rfl, ?_⟩
    intro q
    rw [show slotLookup s [] q = none from rfl]
    rfl
  | cons j rest ih =>
    intro t hInv hcap hnt hus hcur hroom hfresh hdist hnd t2 ht2
    rw [List.foldl_cons] at ht2
    have hcountc : (j :: rest).countP (fun j2 => liveIdx s j2) =
        rest.countP (fun j2 => liveIdx s j2) + (if liveIdx s j = true then 1 else 0) := by
      rw [List.countP_cons]
    have hjrest : j ∉ rest := (List.nodup_cons.mp hnd).1
    have hndrest : rest.Nodup := (List.nodup_cons.mp hnd).2
    by_cases hlj : liveIdx s j = true
    · -- the slot is live: it is inserted into the accumulator
      set k := (s.store j).key with hk
      set v := (s.store j).payload with hv
      cases hres : probeInsert t k none t.capacity 0 with
      | dup =>
        obtain ⟨j2, i, _, _, hbref, hkey⟩ := probeInsert_dup_sound t.capacity none 0 hres
        have : isLive t k :=
          ⟨probePos t k j2, i, probePos_lt hInv.cap_pos k j2, hbref, hkey⟩
        exact absurd this (hfresh j (by simp) hlj)
      | overflow => exact absurd hres (probeInsert_top_ne_overflow hInv none)
      | place pos reused =>
        have hrf : reused = false := by
          cases reused with
          | false => rfl
          | true =>
            obtain ⟨jpos, hjpos, hppos, _, htomb, _, _⟩ := probeInsert_place_top hInv hres
            have hposlt : pos < t.capacity := by
              rw [hppos]
              exact probePos_lt hInv.cap_pos k jpos
            rw [hcap] at hposlt
            exact absurd (htomb rfl) (hnt pos hposlt)
        subst hrf
        have hroom1 : t.slots_used + 1 ≤ 3 * t.capacity / 4 := by
          rw [hus, hcap]
          rw [hcountc] at hroom
          rw [if_pos hlj] at hroom
          omega
        have hstep : (if liveIdx s j = true then (insertRaw t (s.store j).key (s.store j).payload).2
            else t) = placeNew t k v pos false := by
          rw [if_pos hlj]
          show (insertRaw t k v).2 = placeNew t k v pos false
          unfold insertRaw
          rw [hres]
        rw [hstep] at ht2
        set t3 := placeNew t k v pos false with ht3
        have hInv3 : HTInv t3 := placeNew_inv hInv hres hroom1
        have hcap3 : t3.capacity = cap2 := hcap
        have hnt3 : ∀ p, p < cap2 → t3.buckets p ≠ Bucket.tomb := by
          intro p hp
          rw [ht3, placeNew_buckets]
          by_cases hpp : p = pos
          · rw [if_pos hpp]; simp
          · rw [if_neg hpp]; exact hnt p hp
        have hus3 : t3.slots_used = t3.size := by
          show (if false then t.slots_used else t.slots_used + 1) = t.size + 1
          rw [if_neg (by simp)]
          omega
        have hcur3 : t3.cursor = t3.size := by
          show t.cursor + 1 = t.size + 1
          omega
        have hroom3 : t3.size + rest.countP (fun j2 => liveIdx s j2) ≤ 3 * cap2 / 4 := by
          show t.size + 1 + rest.countP (fun j2 => liveIdx s j2) ≤ 3 * cap2 / 4
          rw [hcountc, if_pos hlj] at hroom
          omega
        have hfresh3 : ∀ j2 ∈ rest, liveIdx s j2 = true → ¬ isLive t3 ((s.store j2).key) := by
          intro j2 hj2 hlj2 hcon
          have hkne : (s.store j2).key ≠ k := by
            intro hcon2
            exact hdist j (by simp) j2 (by simp [hj2]) (fun he => hjrest (he ▸ hj2)) hlj hlj2
              hcon2.symm
          have hlu : dht_lookup t3 ((s.store j2).key) = dht_lookup t ((s.store j2).key) :=
            placeNew_lookup_other hInv hres hroom1 _ hkne
          have hnone : dht_lookup t ((s.store j2).key) = none :=
            lookup_of_not_live hInv (hfresh j2 (by simp [hj2]) hlj2)
          have hsome := (lookup_isSome_iff hInv3).mpr hcon
          rw [hlu, hnone] at hsome
          simp at hsome
        have hdist3 : ∀ j1 ∈ rest, ∀ j2 ∈ rest, j1 ≠ j2 → liveIdx s j1 = true →
            liveIdx s j2 = true → (s.store j1).key ≠ (s.store j2).key := by
          intro j1 h1 j2 h2 hne hl1 hl2
          exact hdist j1 (by simp [h1]) j2 (by simp [h2]) hne hl1 hl2
        obtain ⟨hA, hB, hC, hD, hE, hF, hG, hH⟩ := ih t3 hInv3 hcap3 hnt3 hus3 hcur3 hroom3
          hfresh3 hdist3 hndrest t2 ht2
        refine ⟨hA, hB, hC, hD, hE, ?_, ?_, ?_⟩
        · rw [hF]
          show t3.size + _ = _
          rw [show t3.size = t.size + 1 from rfl]
          rw [hcountc, if_pos hlj]
          omega
        · rw [hG]
          rfl
        · intro q
          rw [hH q]
          by_cases hkq : (s.store j).key = q
          · have hjq : (if liveIdx s j = true ∧ (s.store j).key = q
                then some ((s.store j).payload) else none) = some v := by
              rw [if_pos ⟨hlj, hkq⟩]
            have hcons : slotLookup s (j :: rest) q = some v := by
              unfold slotLookup
              rw [List.findSome?_cons]
              rw [hjq]
            have hrestnone : slotLookup s rest q = none := by
              refine findSome?_eq_none_of_all _ _ ?_
              intro j2 hj2
              by_cases hlj2 : liveIdx s j2 = true
              · refine if_neg ?_
                rintro ⟨_, hk2⟩
                exact hdist j (by simp) j2 (by simp [hj2]) (fun he => hjrest (he ▸ hj2))
                  hlj hlj2 (by rw [hkq, hk2])
              · refine if_neg ?_
                rintro ⟨hl2, _⟩
                exact hlj2 hl2
            have hq : q = k := hkq.symm
            have hself : dht_lookup t3 q = some v := by
              rw [hq]
              exact placeNew_lookup_self hInv hres hroom1
            rw [hrestnone, hself, hcons]
            rfl
          · have hjq : (if liveIdx s j = true ∧ (s.store j).key = q
                then some ((s.store j).payload) else none) = none := by
              refine if_neg ?_
              rintro ⟨_, hk2⟩
              exact hkq hk2
            have hcons : slotLookup s (j :: rest) q = slotLookup s rest q := by
              unfold slotLookup
              rw [List.findSome?_cons, hjq]
            have hother : dht_lookup t3 q = dht_lookup t q :=
              placeNew_lookup_other hInv hres hroom1 q (fun he => hkq he.symm)
            rw [hcons, hother]
    · -- the slot is dead: it is skipped
      have hstep : (if liveIdx s j = true then (insertRaw t (s.store j).key (s.store j).payload).2
          else t) = t := by
        rw [if_neg hlj]
      rw [hstep] at ht2
      have hroomr : t.size + rest.countP (fun j2 => liveIdx s j2) ≤ 3 * cap2 / 4 := by
        rw [hcountc, if_neg hlj] at hroom
        omega
      obtain ⟨hA, hB, hC, hD, hE, hF, hG, hH⟩ := ih t hInv hcap hnt hus hcur hroomr
        (fun j2 hj2 => hfresh j2 (by simp [hj2]))
        (fun j1 h1 j2 h2 => hdist j1 (by simp [h1]) j2 (by simp [h2])) hndrest t2 ht2
      refine ⟨hA, hB, hC, hD, hE, ?_, hG, ?_⟩
      · rw [hF, hcountc, if_neg hlj]
        omega
      · intro q
        rw [hH q]
        have hjq : (if liveIdx s j = true ∧ (s.store j).key = q
            then some ((s.store j).payload) else none) = none := by
          refine if_neg ?_
          rintro ⟨hl2, _⟩
          exact hlj hl2
        have hcons : slotLookup s (j :: rest) q = slotLookup s rest q := by
          unfold slotLookup
          rw [List.findSome?_cons, hjq]
        rw [hcons]

theorem rehashInto_spec {s : HT} (hInv : HTInv s) {cap2 : Nat} (h8 : 8 ≤ cap2)
    (hcap : s.capacity ≤ cap2) :
    HTInv (rehashInto s cap2) ∧
      (rehashInto s cap2).capacity = cap2 ∧
      (rehashInto s cap2).size = s.size ∧
      (rehashInto s cap2).slots_used = s.size ∧
      (rehashInto s cap2).cursor = s.size ∧
      (rehashInto s cap2).readOnly = s.readOnly ∧
      (∀ q, dht_lookup (rehashInto s cap2) q = dht_lookup s q) := by
  have hInv0 : HTInv (freshAt s cap2) := inv_freshAt s cap2 h8
  have hnl0 : ∀ q, ¬ isLive (freshAt s cap2) q := by
    rintro q ⟨p, i, _, hb, _⟩
    exact absurd (show Bucket.empty = Bucket.ref i from hb) (by simp)
  have hcount := liveSlotCount_eq_size hInv
  have hroom : (freshAt s cap2).size +
      (List.range s.cursor).countP (fun j => liveIdx s j) ≤ 3 * cap2 / 4 := by
    show 0 + _ ≤ _
    rw [hcount, Nat.zero_add]
    have h1 := hInv.size_le_used
    have h2 := hInv.used_bound
    have h3 : 3 * s.capacity / 4 ≤ 3 * cap2 / 4 :=
      Nat.div_le_div_right (Nat.mul_le_mul_left 3 hcap)
    omega
  have hdist : ∀ j1 ∈ List.range s.cursor, ∀ j2 ∈ List.range s.cursor, j1 ≠ j2 →
      liveIdx s j1 = true → liveIdx s j2 = true → (s.store j1).key ≠ (s.store j2).key := by
    intro j1 _ j2 _ hne hl1 hl2 hkeq
    obtain ⟨p1, hp1, hb1⟩ := (liveIdx_iff s j1).mp hl1
    obtain ⟨p2, hp2, hb2⟩ := (liveIdx_iff s j2).mp hl2
    have hpp : p1 = p2 := by
      refine hInv.uniq p1 p2 (j1 + 1) (j2 + 1) hp1 hp2 hb1 hb2 ?_
      rw [show j1 + 1 - 1 = j1 by omega, show j2 + 1 - 1 = j2 by omega]
      exact hkeq
    rw [hpp, hb2] at hb1
    injection hb1 with hjj
    omega
  obtain ⟨hA, hB, _, hD, hE, hF, hG, hH⟩ := rehash_fold s cap2 (List.range s.cursor)
    (freshAt s cap2) hInv0 rfl
    (fun p _ => by show Bucket.empty ≠ Bucket.tomb; simp)
    rfl rfl hroom
    (fun j _ hl => hnl0 _)
    hdist (List.nodup_range _) (rehashInto s cap2) rfl
  have hsize : (rehashInto s cap2).size = s.size := by
    rw [hF]
    show 0 + _ = _
    rw [Nat.zero_add, hcount]
  refine ⟨hA, hB, hsize, by rw [hD, hsize], by rw [hE, hsize], hG, ?_⟩
  intro q
  rw [hH q]
  rw [lookup_of_not_live hInv0 (hnl0 q)]
  by_cases hl : isLive s q
  · obtain ⟨p, i, hp, hb, hkq⟩ := hl
    obtain ⟨hi1, hi2⟩ := hInv.ref_pos p hp i hb
    have hji : i - 1 + 1 = i := by omega
    have hlivej : liveIdx s (i - 1) = true := by
      rw [liveIdx_iff]
      exact ⟨p, hp, by rw [hji]; exact hb⟩
    have hfj : (if liveIdx s (i - 1) = true ∧ (s.store (i - 1)).key = q
        then some ((s.store (i - 1)).payload) else none) = some ((s.store (i - 1)).payload) :=
      if_pos ⟨hlivej, hkq⟩
    have hsl : slotLookup s (List.range s.cursor) q = some ((s.store (i - 1)).payload) := by
      refine findSome?_eq_some_unique _ _ (i - 1) _ (List.mem_range.mpr (by omega)) hfj ?_
      intro x hx hne
      by_cases hcx : liveIdx s x = true ∧ (s.store x).key = q
      · obtain ⟨hlx, hkx⟩ := hcx
        obtain ⟨p2, hp2, hb2⟩ := (liveIdx_iff s x).mp hlx
        have hlive2 : liveAt s q p2 (x + 1) := by
          refine ⟨hp2, hb2, ?_⟩
          rw [show x + 1 - 1 = x by omega]
          exact hkx
        obtain ⟨_, heqi⟩ := liveAt_unique hInv hlive2 ⟨hp, hb, hkq⟩
        omega
      · exact absurd (if_neg hcx) hne
    rw [hsl, lookup_of_liveAt hInv ⟨hp, hb, hkq⟩]
    rfl
  · have hsl : slotLookup s (List.range s.cursor) q = none := by
      refine findSome?_eq_none_of_all _ _ ?_
      intro x hx
      refine if_neg ?_
      rintro ⟨hlx, hkx⟩
      obtain ⟨p2, hp2, hb2⟩ := (liveIdx_iff s x).mp hlx
      refine hl ⟨p2, x + 1, hp2, hb2, ?_⟩
      rw [show x + 1 - 1 = x by omega]
      exact hkx
    rw [hsl, lookup_of_not_live hInv hl]
    rfl

theorem dht_reserve_noop {s : HT} (allocOk : Bool) (n : Nat)
    (h : pow2ge (max n 8) ≤ s.capacity) : dht_reserve s allocOk n = (s.capacity, s) := by
  unfold dht_reserve
  rw [if_pos h]

theorem dht_reserve_fail {s : HT} (n : Nat)
    (h : s.capacity < pow2ge (max n 8)) : dht_reserve s false n = (0, s) := by
  unfold dht_reserve
  rw [if_neg (by omega)]
  rfl

theorem dht_reserve_grow {s : HT} (hInv : HTInv s) (n : Nat)
    (h : s.capacity < pow2ge (max n 8)) :
    dht_reserve s true n = (pow2ge (max n 8), rehashInto s (pow2ge (max n 8))) ∧
      HTInv (rehashInto s (pow2ge (max n 8))) ∧
      (rehashInto s (pow2ge (max n 8))).capacity = pow2ge (max n 8) ∧
      (rehashInto s (pow2ge (max n 8))).size = s.size ∧
      (rehashInto s (pow2ge (max n 8))).slots_used = s.size ∧
      (rehashInto s (pow2ge (max n 8))).cursor = s.size ∧
      (rehashInto s (pow2ge (max n 8))).readOnly = s.readOnly ∧
      (∀ q, dht_lookup (rehashInto s (pow2ge (max n 8))) q = dht_lookup s q) := by
  have h8 : 8 ≤ pow2ge (max n 8) := le_trans (le_max_right n 8) (pow2ge_ge (max n 8))
  obtain ⟨hA, hB, hC, hD, hE, hF, hG⟩ := rehashInto_spec hInv h8 (by omega)
  refine ⟨?_, hA, hB, hC, hD, hE, hF, hG⟩
  unfold dht_reserve
  rw [if_neg (by omega)]
  rw [if_pos rfl]

/-! ### The full insert step -/

theorem room_after_double {cap used : Nat} (h8 : 8 ≤ cap) (hub : used ≤ 3 * cap / 4)
    {cap2 : Nat} (h2 : 2 * cap ≤ cap2) : used + 1 ≤ 3 * cap2 / 4 := by
  have hmono : 3 * (2 * cap) / 4 ≤ 3 * cap2 / 4 :=
    Nat.div_le_div_right (by omega)
  have heq : 3 * (2 * cap) / 4 = 3 * cap / 2 := by
    rw [show 3 * (2 * cap) = 2 * (3 * cap) by ring, show (4 : Nat) = 2 * 2 from rfl]
    exact Nat.mul_div_mul_left (3 * cap) 2 (by norm_num)
  have hd4 : 3 * cap / 4 * 4 ≤ 3 * cap := Nat.div_mul_le_self _ _
  have h6 : 6 ≤ 3 * cap / 4 := by
    have h24 : (24 : Nat) / 4 ≤ 3 * cap / 4 := Nat.div_le_div_right (by omega)
    omega
  have hhalf : 3 * cap / 4 * 2 ≤ 3 * cap / 2 := by
    rw [Nat.le_div_iff_mul_le (by norm_num)]
    omega
  omega

theorem reserve_double_grows {s : HT} (hInv : HTInv s) :
    s.capacity < pow2ge (max (2 * s.capacity) 8) ∧
    2 * s.capacity ≤ pow2ge (max (2 * s.capacity) 8) := by
  have h8 := hInv.cap8
  have hge := pow2ge_ge (max (2 * s.capacity) 8)
  have hmax : 2 * s.capacity ≤ max (2 * s.capacity) 8 := le_max_left _ _
  omega

theorem dht_insert_step {s : HT} (hInv : HTInv s) (alloc : Bool) (k v : List Nat) :
    HTInv (dht_insert s alloc k v).2 ∧
      (dht_insert s alloc k v).2.readOnly = s.readOnly ∧
      ((dht_insert s alloc k v).1 = 1 →
        dht_lookup (dht_insert s alloc k v).2 k = some v ∧
        ∀ q, q ≠ k → dht_lookup (dht_insert s alloc k v).2 q = dht_lookup s q) ∧
      ((dht_insert s alloc k v).1 ≠ 1 →
        ∀ q, dht_lookup (dht_insert s alloc k v).2 q = dht_lookup s q) := by
  by_cases hlen : s.key_maxlen ≤ k.length
  · have heq : dht_insert s alloc k v = (-EINVAL, s) := by
      unfold dht_insert
      rw [if_pos hlen]
    rw [heq]
    exact ⟨hInv, rfl, fun hcon => absurd hcon (by norm_num [EINVAL]), fun _ q => rfl⟩
  · cases hro : s.readOnly with
    | true =>
      have heq : dht_insert s alloc k v = (-EACCES, s) := by
        unfold dht_insert
        rw [if_neg hlen, hro]
        rfl
      rw [heq]
      exact ⟨hInv, hro, fun hcon => absurd hcon (by norm_num [EACCES]), fun _ q => rfl⟩
    | false =>
      by_cases htrig : 3 * s.capacity / 4 < s.slots_used + 1
      · -- capacity check fires: reserve twice the capacity first
        obtain ⟨hgrow, hdouble⟩ := reserve_double_grows hInv
        cases alloc with
        | false =>
          have heq : dht_insert s false k v = (-ENOMEM, s) := by
            unfold dht_insert
            rw [if_neg hlen, hro, dht_reserve_fail _ hgrow]
            rw [if_pos htrig]
            rfl
          rw [heq]
          exact ⟨hInv, hro, fun hcon => absurd hcon (by norm_num [ENOMEM]), fun _ q => rfl⟩
        | true =>
          obtain ⟨hres, hInv2, hcap2, hsize2, hused2, hcur2, hro2, hlook2⟩ :=
            dht_reserve_grow hInv (2 * s.capacity) hgrow
          set s2 := rehashInto s (pow2ge (max (2 * s.capacity) 8)) with hs2
          have hr1 : (dht_reserve s true (2 * s.capacity)).1 = pow2ge (max (2 * s.capacity) 8) := by
            rw [hres]
          have hr2 : (dht_reserve s true (2 * s.capacity)).2 = s2 := by
            rw [hres]
          have hrne : ¬ ((dht_reserve s true (2 * s.capacity)).1 = 0) := by
            rw [hr1]
            have := pow2ge_ge (max (2 * s.capacity) 8)
            have h8 := hInv.cap8
            omega
          have heq : dht_insert s true k v = insertRaw s2 k v := by
            unfold dht_insert
            rw [if_neg hlen, hro, if_pos htrig, if_neg hrne, hr2]
            rfl
          have hroom2 : s2.slots_used + 1 ≤ 3 * s2.capacity / 4 := by
            rw [hused2, hcap2]
            exact room_after_double hInv.cap8
              (le_trans hInv.size_le_used hInv.used_bound) hdouble
          rw [heq]
          cases hpi : probeInsert s2 k none s2.capacity 0 with
          | dup =>
            have heq2 : insertRaw s2 k v = (0, s2) := by
              unfold insertRaw
              rw [hpi]
            rw [heq2]
            exact ⟨hInv2, hro2.trans hro, fun hcon => absurd hcon (by norm_num),
              fun _ q => hlook2 q⟩
          | overflow => exact absurd hpi (probeInsert_top_ne_overflow hInv2 none)
          | place pos reused =>
            have heq2 : insertRaw s2 k v = (1, placeNew s2 k v pos reused) := by
              unfold insertRaw
              rw [hpi]
            rw [heq2]
            refine ⟨placeNew_inv hInv2 hpi hroom2, hro2.trans hro, ?_, ?_⟩
            · intro _
              refine ⟨placeNew_lookup_self hInv2 hpi hroom2, ?_⟩
              intro q hq
              rw [placeNew_lookup_other hInv2 hpi hroom2 q hq]
              exact hlook2 q
            · intro hcon
              exact absurd rfl hcon
      · -- no capacity check: insert directly
        have heq : dht_insert s alloc k v = insertRaw s k v := by
          unfold dht_insert
          rw [if_neg hlen, hro, if_neg htrig]
          rfl
        have hroom : s.slots_used + 1 ≤ 3 * s.capacity / 4 := by omega
        rw [heq]
        cases hpi : probeInsert s k none s.capacity 0 with
        | dup =>
          have heq2 : insertRaw s k v = (0, s) := by
            unfold insertRaw
            rw [hpi]
          rw [heq2]
          exact ⟨hInv, hro, fun hcon => absurd hcon (by norm_num), fun _ q => rfl⟩
        | overflow => exact absurd hpi (probeInsert_top_ne_overflow hInv none)
        | place pos reused =>
          have heq2 : insertRaw s k v = (1, placeNew s k v pos reused) := by
            unfold insertRaw
            rw [hpi]
          rw [heq2]
          refine ⟨placeNew_inv hInv hpi hroom, hro, ?_, ?_⟩
          · intro _
            exact ⟨placeNew_lookup_self hInv hpi hroom,
              fun q hq => placeNew_lookup_other hInv hpi hroom q hq⟩
          · intro hcon
            exact absurd rfl hcon

/-! ### Trace semantics -/

theorem applyOp_step {s : HT} (hInv : HTInv s) (o : Op) :
    HTInv (applyOp s o) ∧ (applyOp s o).readOnly = s.readOnly ∧
      ∀ k, dht_lookup (applyOp s o) k = opBinding s o k (dht_lookup s k) := by
  cases o with
  | insert a q v =>
    obtain ⟨hInv2, hro2, hone, hnone⟩ := dht_insert_step hInv a q v
    refine ⟨hInv2, hro2, fun k => ?_⟩
    show dht_lookup (dht_insert s a q v).2 k =
      if q = k ∧ (dht_insert s a q v).1 = 1 then some v else dht_lookup s k
    by_cases hqk : q = k
    · by_cases hres : (dht_insert s a q v).1 = 1
      · rw [if_pos ⟨hqk, hres⟩, ← hqk]
        exact (hone hres).1
      · rw [if_neg (fun hc => hres hc.2)]
        exact hnone hres k
    · rw [if_neg (fun hc => hqk hc.1)]
      by_cases hres : (dht_insert s a q v).1 = 1
      · exact (hone hres).2 k (fun hc => hqk hc.symm)
      · exact hnone hres k
  | update q v =>
    show HTInv (dht_update s q v).2 ∧ (dht_update s q v).2.readOnly = s.readOnly ∧
      ∀ k, dht_lookup (dht_update s q v).2 k =
        (if q = k ∧ (dht_update s q v).1 = 1 then some v else dht_lookup s k)
    cases hro : s.readOnly with
    | true =>
      have heq : dht_update s q v = (-EACCES, s) := by
        unfold dht_update
        rw [hro]
        rfl
      have hres : (dht_update s q v).1 ≠ 1 := by
        rw [heq]
        norm_num [EACCES]
      have hst : (dht_update s q v).2 = s := by rw [heq]
      rw [hst]
      refine ⟨hInv, hro, fun k => ?_⟩
      rw [if_neg (fun hc => hres hc.2)]
    | false =>
      by_cases hl : isLive s q
      · obtain ⟨p, i, hlive⟩ := hl
        obtain ⟨hres, hInv2, hself, hother, _, _, _, _, hro2⟩ := dht_update_hit hInv hro hlive
        refine ⟨hInv2, hro2.trans hro, fun k => ?_⟩
        by_cases hqk : q = k
        · rw [if_pos ⟨hqk, hres⟩, ← hqk]
          exact hself
        · rw [if_neg (fun hc => hqk hc.1)]
          exact hother k (fun hc => hqk hc.symm)
      · have heq := dht_update_miss v hInv hro hl
        have hres : (dht_update s q v).1 ≠ 1 := by
          rw [heq]
          norm_num
        have hst : (dht_update s q v).2 = s := by rw [heq]
        rw [hst]
        refine ⟨hInv, hro, fun k => ?_⟩
        rw [if_neg (fun hc => hres hc.2)]
  | delete q =>
    show HTInv (dht_delete s q).2 ∧ (dht_delete s q).2.readOnly = s.readOnly ∧
      ∀ k, dht_lookup (dht_delete s q).2 k =
        (if q = k ∧ (dht_delete s q).1 = 1 then none else dht_lookup s k)
    cases hro : s.readOnly with
    | true =>
      have heq : dht_delete s q = (-EACCES, s) := by
        unfold dht_delete
        rw [hro]
        rfl
      have hres : (dht_delete s q).1 ≠ 1 := by
        rw [heq]
        norm_num [EACCES]
      have hst : (dht_delete s q).2 = s := by rw [heq]
      rw [hst]
      refine ⟨hInv, hro, fun k => ?_⟩
      rw [if_neg (fun hc => hres hc.2)]
    | false =>
      by_cases hl : isLive s q
      · obtain ⟨p, i, hlive⟩ := hl
        obtain ⟨hres, hInv2, hself, hother, _, _, _, _, hro2⟩ := dht_delete_hit hInv hro hlive
        refine ⟨hInv2, hro2.trans hro, fun k => ?_⟩
        by_cases hqk : q = k
        · rw [if_pos ⟨hqk, hres⟩, ← hqk]
          exact hself
        · rw [if_neg (fun hc => hqk hc.1)]
          exact hother k (fun hc => hqk hc.symm)
      · have heq := dht_delete_miss hInv hro hl
        have hres : (dht_delete s q).1 ≠ 1 := by
          rw [heq]
          norm_num
        have hst : (dht_delete s q).2 = s := by rw [heq]
        rw [hst]
        refine ⟨hInv, hro, fun k => ?_⟩
        rw [if_neg (fun hc => hres hc.2)]
  | reserve a n =>
    show HTInv (dht_reserve s a n).2 ∧ (dht_reserve s a n).2.readOnly = s.readOnly ∧
      ∀ k, dht_lookup (dht_reserve s a n).2 k = dht_lookup s k
    by_cases hle : pow2ge (max n 8) ≤ s.capacity
    · have heq := dht_reserve_noop a n hle
      have hst : (dht_reserve s a n).2 = s := by rw [heq]
      rw [hst]
      exact ⟨hInv, rfl, fun k => rfl⟩
    · cases a with
      | false =>
        have heq := dht_reserve_fail (s := s) n (not_le.mp hle)
        have hst : (dht_reserve s false n).2 = s := by rw [heq]
        rw [hst]
        exact ⟨hInv, rfl, fun k => rfl⟩
      | true =>
        obtain ⟨heq, hInv2, _, _, _, _, hro2, hlook⟩ := dht_reserve_grow hInv n (not_le.mp hle)
        have hst : (dht_reserve s true n).2 = rehashInto s (pow2ge (max n 8)) := by rw [heq]
        rw [hst]
        exact ⟨hInv2, hro2, fun k => hlook k⟩

theorem runOps_trace {s : HT} (hInv : HTInv s) (ops : List Op) :
    HTInv (runOps s ops) ∧
      ∀ k, dht_lookup (runOps s ops) k = traceBinding s ops k (dht_lookup s k) := by
  induction ops generalizing s with
  | nil => exact ⟨hInv, fun k => rfl⟩
  | cons o rest ih =>
    obtain ⟨hInv1, _, hbind⟩ := applyOp_step hInv o
    obtain ⟨hInv2, hlook⟩ := ih hInv1
    refine ⟨hInv2, fun k => ?_⟩
    show dht_lookup (runOps (applyOp s o) rest) k =
      traceBinding (applyOp s o) rest k (opBinding s o k (dht_lookup s k))
    rw [hlook k, hbind k]

theorem lookup_open_fresh (kml odl : Nat) (k : List Nat) :
    dht_lookup (dht_open_fresh kml odl) k = none := by
  refine lookup_of_not_live (inv_open_fresh kml odl) ?_
  rintro ⟨p, i, _, hb, _⟩
  exact absurd (show Bucket.empty = Bucket.ref i from hb) (by simp)

/-! ### Claim theorems -/

/-- The state after inserting n one-byte keys 97, 98, ... (the C strings
"a", "b", ...) with distinct 8-byte payloads into a fresh read-write table
opened with key_maxlen 15 and object_datalen 8. -/
def seqInsState (n : Nat) : HT :=
  runOps (dht_open_fresh 15 8)
    ((List.range n).map fun i => Op.insert true [97 + i] [i, 0, 0, 0, 0, 0, 0, 0])

/-- The boundary-scenario state: insert "a", "b", "c", then delete "b". -/
def delExample : HT := (dht_delete (seqInsState 3) [98]).2

/-- Claim C1: for every key K inserted and not subsequently deleted,
dht_lookup K returns a pointer (modelled as some) whose target bytes are the
most recently written payload for K.  traceBinding records exactly that
payload along the run: it is set to v by every insert or update of K that
returns 1 and cleared by every delete of K that returns 1, so a key that was
inserted and not subsequently deleted has traceBinding some v with v the
payload of the last successful write; the theorem states that lookup then
returns precisely that payload. -/
theorem C1_lookup_returns_latest_payload (kml odl : Nat) (ops : List Op) (k v : List Nat)
    (h : traceBinding (dht_open_fresh kml odl) ops k none = some v) :
    dht_lookup (runOps (dht_open_fresh kml odl) ops) k = some v := by
  obtain ⟨_, hlook⟩ := runOps_trace (inv_open_fresh kml odl) ops
  rw [hlook k, lookup_open_fresh kml odl k]
  exact h

theorem C1_witness :
    traceBinding (dht_open_fresh 15 8) [Op.insert true [97] [5]] [97] none = some [5] ∧
      dht_lookup (runOps (dht_open_fresh 15 8) [Op.insert true [97] [5]]) [97] = some [5] :=
  ⟨by decide, C1_lookup_returns_latest_payload 15 8 [Op.insert true [97] [5]] [97] [5] (by decide)⟩

/-- Claim C2: for every key K deleted and not subsequently re-inserted,
dht_lookup K returns the not-found indication (none).  Such a key has
traceBinding none after the run (the successful delete clears the binding
and no later successful insert sets it again); the theorem states that
lookup then reports not-found. -/
theorem C2_deleted_key_not_found (kml odl : Nat) (ops : List Op) (k : List Nat)
    (h : traceBinding (dht_open_fresh kml odl) ops k none = none) :
    dht_lookup (runOps (dht_open_fresh kml odl) ops) k = none := by
  obtain ⟨_, hlook⟩ := runOps_trace (inv_open_fresh kml odl) ops
  rw [hlook k, lookup_open_fresh kml odl k]
  exact h

theorem C2_witness :
    traceBinding (dht_open_fresh 15 8) [Op.insert true [97] [5], Op.delete [97]] [97] none
        = none ∧
      dht_lookup (runOps (dht_open_fresh 15 8) [Op.insert true [97] [5], Op.delete [97]]) [97]
        = none :=
  ⟨by decide, C2_deleted_key_not_found 15 8 [Op.insert true [97] [5], Op.delete [97]] [97]
    (by decide)⟩

/-- Claim C3, counterexample: inserting a duplicate key is not free of
mutation.  After six inserts into a fresh capacity-8 table the load check
fires on the next insert, so re-inserting the already present key "a"
returns 0 (already present) but first rehashes the table: the capacity
changes from 8 to 16, refuting the claim that all header counters are
unchanged. -/
theorem C3_counterexample :
    (dht_lookup (seqInsState 6) [97]).isSome = true ∧
      (dht_insert (seqInsState 6) true [97] [9, 9, 9, 9, 9, 9, 9, 9]).1 = 0 ∧
      dht_capacity (dht_insert (seqInsState 6) true [97] [9, 9, 9, 9, 9, 9, 9, 9]).2 ≠
        dht_capacity (seqInsState 6) := by
  decide

/-- Claim C3, amended: for a key K already present in a read-write table
(valid key length, any needed allocation succeeding), dht_insert K V2
returns 0, the stored payload for K and every lookup result and the size are
unchanged; moreover if the pre-probe capacity check does not fire
(slots_used + 1 at most 3/4 of capacity) the table is entirely unchanged;
when the check fires, the table is rehashed before the duplicate is
detected, so capacity (and slots_used, cursor) may change. -/
theorem C3_amended_duplicate_insert (s : HT) (k w v2 : List Nat)
    (hInv : HTInv s) (hro : s.readOnly = false) (hlen : k.length < s.key_maxlen)
    (hpresent : dht_lookup s k = some w) :
    (dht_insert s true k v2).1 = 0 ∧
      dht_lookup (dht_insert s true k v2).2 k = some w ∧
      (∀ q, dht_lookup (dht_insert s true k v2).2 q = dht_lookup s q) ∧
      (dht_insert s true k v2).2.size = s.size ∧
      (s.slots_used + 1 ≤ 3 * s.capacity / 4 → dht_insert s true k v2 = (0, s)) := by
  have hl : isLive s k := by
    rw [← lookup_isSome_iff hInv, hpresent]
    rfl
  by_cases htrig : 3 * s.capacity / 4 < s.slots_used + 1
  · obtain ⟨hgrow, hdouble⟩ := reserve_double_grows hInv
    obtain ⟨hres, hInv2, hcap2, hsize2, hused2, hcur2, hro2, hlook2⟩ :=
      dht_reserve_grow hInv (2 * s.capacity) hgrow
    set s2 := rehashInto s (pow2ge (max (2 * s.capacity) 8)) with hs2
    have hl2 : isLive s2 k := by
      rw [← lookup_isSome_iff hInv2, hlook2 k, hpresent]
      rfl
    have hdup : probeInsert s2 k none s2.capacity 0 = .dup :=
      probeInsert_dup_of_live hInv2 hl2 none
    have hrne : ¬ ((dht_reserve s true (2 * s.capacity)).1 = 0) := by
      rw [hres]
      show ¬ (pow2ge (max (2 * s.capacity) 8) = 0)
      have := pow2ge_ge (max (2 * s.capacity) 8)
      have h8 := hInv.cap8
      omega
    have heq : dht_insert s true k v2 = (0, s2) := by
      unfold dht_insert
      rw [if_neg (by omega), hro, if_pos htrig, if_neg hrne]
      rw [show (dht_reserve s true (2 * s.capacity)).2 = s2 by rw [hres]]
      unfold insertRaw
      rw [hdup]
      rfl
    rw [heq]
    refine ⟨rfl, ?_, ?_, hsize2, ?_⟩
    · show dht_lookup s2 k = some w
      rw [hlook2 k, hpresent]
    · intro q
      exact hlook2 q
    · intro hcon
      omega
  · have hdup : probeInsert s k none s.capacity 0 = .dup :=
      probeInsert_dup_of_live hInv hl none
    have heq : dht_insert s true k v2 = (0, s) := by
      unfold dht_insert
      rw [if_neg (by omega), hro, if_neg htrig]
      unfold insertRaw
      rw [hdup]
      rfl
    rw [heq]
    exact ⟨rfl, hpresent, fun q => rfl, rfl, fun _ => rfl⟩

theorem C3_witness :
    (dht_insert (seqInsState 3) true [97] [7, 7, 7, 7, 7, 7, 7, 7]).1 = 0 ∧
      dht_lookup (dht_insert (seqInsState 3) true [97] [7, 7, 7, 7, 7, 7, 7, 7]).2 [97] =
        some [0, 0, 0, 0, 0, 0, 0, 0] ∧
      dht_insert (seqInsState 3) true [97] [7, 7, 7, 7, 7, 7, 7, 7] = (0, seqInsState 3) := by
  have h := C3_amended_duplicate_insert (seqInsState 3) [97] [0, 0, 0, 0, 0, 0, 0, 0]
    [7, 7, 7, 7, 7, 7, 7, 7]
    (runOps_trace (inv_open_fresh 15 8)
      ((List.range 3).map fun i => Op.insert true [97 + i] [i, 0, 0, 0, 0, 0, 0, 0])).1
    (by decide) (by decide) (by decide)
  exact ⟨h.1, h.2.1, h.2.2.2.2 (by decide)⟩

/-- Claim C4: after every sequence of operations run from a freshly opened
table, the header satisfies size at most slots_used, slots_used at most
capacity, and the load bound slots_used at most 3/4 of capacity; since the
statement quantifies over all operation sequences, every operation preserves
the invariant. -/
theorem C4_header_invariant (kml odl : Nat) (ops : List Op) :
    dht_size (runOps (dht_open_fresh kml odl) ops) ≤
        dht_slots_used (runOps (dht_open_fresh kml odl) ops) ∧
      dht_slots_used (runOps (dht_open_fresh kml odl) ops) ≤
        dht_capacity (runOps (dht_open_fresh kml odl) ops) ∧
      dht_slots_used (runOps (dht_open_fresh kml odl) ops) ≤
        3 * dht_capacity (runOps (dht_open_fresh kml odl) ops) / 4 := by
  obtain ⟨hInv, _⟩ := runOps_trace (inv_open_fresh kml odl) ops
  exact ⟨hInv.size_le_used, hInv.used_le_cap, hInv.used_bound⟩

/-- Claim C5, counterexample: the rehash does not wait for the eighth
insert.  Inserting only the seven keys "a" through "g" into the fresh
capacity-8 table already leaves the capacity at 16, not 8: the seventh
insert fires the load check (slots_used + 1 = 7 exceeds 3 times 8 over 4
= 6), refuting the claim that the insert of "h" is what triggers the
rehash from capacity 8. -/
theorem C5_counterexample :
    dht_size (seqInsState 7) = 7 ∧ dht_slots_used (seqInsState 7) = 7 ∧
      dht_capacity (seqInsState 7) ≠ 8 := by
  decide

/-- Claim C5, amended: starting from a fresh table with key_maxlen 15 and
object_datalen 8 (capacity 8, size 0), the first six inserts leave capacity
8; the seventh insert ("g") already triggers the rehash, so after "a"
through "g" the table has size 7, slots_used 7 and capacity 16; inserting
"h" performs no further rehash, leaving capacity 16 and size 8, and all
eight lookups return their payloads. -/
theorem C5_amended_rehash_on_seventh :
    dht_capacity (dht_open_fresh 15 8) = 8 ∧ dht_size (dht_open_fresh 15 8) = 0 ∧
      dht_capacity (seqInsState 6) = 8 ∧
      dht_size (seqInsState 7) = 7 ∧ dht_slots_used (seqInsState 7) = 7 ∧
      dht_capacity (seqInsState 7) = 16 ∧
      dht_capacity (seqInsState 8) = 16 ∧ dht_size (seqInsState 8) = 8 ∧
      dht_lookup (seqInsState 8) [97] = some [0, 0, 0, 0, 0, 0, 0, 0] ∧
      dht_lookup (seqInsState 8) [98] = some [1, 0, 0, 0, 0, 0, 0, 0] ∧
      dht_lookup (seqInsState 8) [99] = some [2, 0, 0, 0, 0, 0, 0, 0] ∧
      dht_lookup (seqInsState 8) [100] = some [3, 0, 0, 0, 0, 0, 0, 0] ∧
      dht_lookup (seqInsState 8) [101] = some [4, 0, 0, 0, 0, 0, 0, 0] ∧
      dht_lookup (seqInsState 8) [102] = some [5, 0, 0, 0, 0, 0, 0, 0] ∧
      dht_lookup (seqInsState 8) [103] = some [6, 0, 0, 0, 0, 0, 0, 0] ∧
      dht_lookup (seqInsState 8) [104] = some [7, 0, 0, 0, 0, 0, 0, 0] := by
  decide

theorem insertRaw_fst_ne_einval (s : HT) (k v : List Nat) : (insertRaw s k v).1 ≠ -EINVAL := by
  unfold insertRaw
  cases hpi : probeInsert s k none s.capacity 0 with
  | dup => norm_num [EINVAL]
  | overflow => norm_num [EINVAL, ENFILE]
  | place pos reused => norm_num [EINVAL]

/-- Claim C6: for every key with strlen at least key_maxlen, dht_insert
returns the invalid-argument error -EINVAL and leaves the table unchanged;
for every key with strlen below key_maxlen the length check passes, i.e. the
result is never -EINVAL. -/
theorem C6_insert_key_length_check (s : HT) (alloc : Bool) (k v : List Nat) :
    (s.key_maxlen ≤ k.length → dht_insert s alloc k v = (-EINVAL, s)) ∧
      (k.length < s.key_maxlen → (dht_insert s alloc k v).1 ≠ -EINVAL) := by
  constructor
  · intro hlen
    unfold dht_insert
    rw [if_pos hlen]
  · intro hlen
    unfold dht_insert
    rw [if_neg (by omega)]
    cases hro : s.readOnly with
    | true => norm_num [EACCES, EINVAL]
    | false =>
      by_cases htrig : 3 * s.capacity / 4 < s.slots_used + 1
      · rw [if_pos htrig]
        by_cases hz : (dht_reserve s alloc (2 * s.capacity)).1 = 0
        · rw [if_pos hz]
          norm_num [ENOMEM, EINVAL]
        · rw [if_neg hz]
          exact insertRaw_fst_ne_einval _ k v
      · rw [if_neg htrig]
        exact insertRaw_fst_ne_einval s k v

theorem C6_witness :
    dht_insert (dht_open_fresh 15 8) true
        [97, 97, 97, 97, 97, 97, 97, 97, 97, 97, 97, 97, 97, 97, 97, 97] [1] =
      (-EINVAL, dht_open_fresh 15 8) ∧
      (dht_insert (dht_open_fresh 15 8) true [97] [1]).1 ≠ -EINVAL :=
  ⟨(C6_insert_key_length_check (dht_open_fresh 15 8) true
      [97, 97, 97, 97, 97, 97, 97, 97, 97, 97, 97, 97, 97, 97, 97, 97] [1]).1 (by decide),
   (C6_insert_key_length_check (dht_open_fresh 15 8) true [97] [1]).2 (by decide)⟩

/-- Claim C7: dht_reserve rounds the request n up to the smallest power of
two at least max(n, 8); when that rounded capacity does not exceed the
current capacity the call is a no-op returning the current capacity;
otherwise, on allocation success it rehashes (capacity becomes the rounded
value, all lookups preserved) and returns the new capacity, and on
allocation failure it returns 0 with the table unchanged. -/
theorem C7_reserve_rounds_and_grows (s : HT) (alloc : Bool) (n : Nat) (hInv : HTInv s) :
    (∃ e, pow2ge (max n 8) = 2 ^ e) ∧
      max n 8 ≤ pow2ge (max n 8) ∧
      (∀ e, max n 8 ≤ 2 ^ e → pow2ge (max n 8) ≤ 2 ^ e) ∧
      (pow2ge (max n 8) ≤ s.capacity → dht_reserve s alloc n = (s.capacity, s)) ∧
      (s.capacity < pow2ge (max n 8) → alloc = false → dht_reserve s alloc n = (0, s)) ∧
      (s.capacity < pow2ge (max n 8) → alloc = true →
        (dht_reserve s alloc n).1 = pow2ge (max n 8) ∧
        (dht_reserve s alloc n).2.capacity = pow2ge (max n 8) ∧
        HTInv (dht_reserve s alloc n).2 ∧
        (∀ q, dht_lookup (dht_reserve s alloc n).2 q = dht_lookup s q)) := by
  refine ⟨pow2ge_pow (max n 8), pow2ge_ge (max n 8), fun e he => pow2ge_min _ e he,
    fun hle => dht_reserve_noop alloc n hle, ?_, ?_⟩
  · intro hgt ha
    subst ha
    exact dht_reserve_fail n hgt
  · intro hgt ha
    subst ha
    obtain ⟨heq, hInv2, hcap2, _, _, _, _, hlook⟩ := dht_reserve_grow hInv n hgt
    have h1 : (dht_reserve s true n).1 = pow2ge (max n 8) := by rw [heq]
    have h2 : (dht_reserve s true n).2 = rehashInto s (pow2ge (max n 8)) := by rw [heq]
    rw [h1, h2]
    exact ⟨rfl, hcap2, hInv2, hlook⟩

theorem C7_witness :
    (8 ≤ pow2ge (max 9 8) ∧ (dht_open_fresh 15 8).capacity < pow2ge (max 9 8)) ∧
      (dht_reserve (dht_open_fresh 15 8) true 9).1 = pow2ge (max 9 8) ∧
      (dht_reserve (dht_open_fresh 15 8) true 9).2.capacity = pow2ge (max 9 8) := by
  have h := (C7_reserve_rounds_and_grows (dht_open_fresh 15 8) true 9
    (inv_open_fresh 15 8)).2.2.2.2.2 (by decide) rfl
  exact ⟨⟨by decide, by decide⟩, h.1, h.2.1⟩

/-- Claim C8: every delete that returns 1 (successful delete of a present
key) decrements size by one and leaves slots_used and capacity unchanged,
so dirty_slots = slots_used - size afterwards counts the deleted slot;
concretely, after inserting "a", "b", "c" and deleting "b": size 2,
dirty_slots 1, slots_used 3. -/
theorem C8_delete_frame (s : HT) (k : List Nat) :
    ((dht_delete s k).1 = 1 →
      dht_size (dht_delete s k).2 = dht_size s - 1 ∧
      dht_slots_used (dht_delete s k).2 = dht_slots_used s ∧
      dht_capacity (dht_delete s k).2 = dht_capacity s ∧
      dht_dirty_slots (dht_delete s k).2 = dht_slots_used s - (dht_size s - 1)) ∧
    (dht_size delExample = 2 ∧ dht_dirty_slots delExample = 1 ∧
      dht_slots_used delExample = 3) := by
  constructor
  · intro hres
    unfold dht_delete at hres ⊢
    cases hro : s.readOnly with
    | true =>
      rw [hro] at hres
      norm_num [EACCES] at hres
    | false =>
      rw [hro] at hres
      cases hp : probeFind s k s.capacity 0 with
      | found p i => exact ⟨rfl, rfl, rfl, rfl⟩
      | notfound =>
        rw [hp] at hres
        norm_num at hres
      | exhausted =>
        rw [hp] at hres
        norm_num [ENFILE] at hres
  · decide

theorem C8_witness :
    (dht_delete (seqInsState 3) [98]).1 = 1 ∧
      dht_size (dht_delete (seqInsState 3) [98]).2 = dht_size (seqInsState 3) - 1 ∧
      dht_slots_used (dht_delete (seqInsState 3) [98]).2 = dht_slots_used (seqInsState 3) := by
  have h := (C8_delete_frame (seqInsState 3) [98]).1 (by decide)
  exact ⟨by decide, h.1, h.2.1⟩

/-- Claim C9: dht_indexed_lookup on an index at least cursor returns
invalid-argument; on an index below cursor it returns 1 with the key and a
copy of the payload of store slot index when the slot is live (referenced by
some primary bucket), and the no-data signal -EFAULT when the slot is dead
(referenced by no primary bucket); concretely, after inserting "a", "b",
"c" and deleting "b", index 1 gives no-data while indices 0 and 2 give "a"
and "c" with their payloads. -/
theorem C9_indexed_lookup_ranges (s : HT) (index : Nat) :
    (s.cursor ≤ index → dht_indexed_lookup s index = (-EINVAL, none)) ∧
      (index < s.cursor → (∃ p, p < s.capacity ∧ s.buckets p = Bucket.ref (index + 1)) →
        dht_indexed_lookup s index =
          (1, some ((s.store index).key, (s.store index).payload))) ∧
      (index < s.cursor → (∀ p, p < s.capacity → s.buckets p ≠ Bucket.ref (index + 1)) →
        dht_indexed_lookup s index = (-EFAULT, none)) ∧
      (dht_indexed_lookup delExample 1 = (-EFAULT, none) ∧
        dht_indexed_lookup delExample 0 = (1, some ([97], [0, 0, 0, 0, 0, 0, 0, 0])) ∧
        dht_indexed_lookup delExample 2 = (1, some ([99], [2, 0, 0, 0, 0, 0, 0, 0])) ∧
        dht_indexed_lookup delExample 3 = (-EINVAL, none)) := by
  refine ⟨?_, ?_, ?_, by decide⟩
  · intro hge
    unfold dht_indexed_lookup
    rw [if_pos hge]
  · intro hlt hlive
    unfold dht_indexed_lookup
    rw [if_neg (by omega), if_pos ((liveIdx_iff s index).mpr hlive)]
  · intro hlt hdead
    unfold dht_indexed_lookup
    rw [if_neg (by omega)]
    rw [if_neg (fun hc => by
      obtain ⟨p, hp, hb⟩ := (liveIdx_iff s index).mp hc
      exact hdead p hp hb)]

theorem C9_witness :
    dht_indexed_lookup (seqInsState 3) 3 = (-EINVAL, none) ∧
      dht_indexed_lookup delExample 1 = (-EFAULT, none) := by
  have h1 := (C9_indexed_lookup_ranges (seqInsState 3) 3).1 (by decide)
  have h2 := (C9_indexed_lookup_ranges delExample 1).2.2.1 (by decide) (by decide)
  exact ⟨h1, h2⟩

/-- The operation sequence used to refute claim C10: reserve capacity 8 on
the fresh table (a successful reserve returning 8), insert six distinct
keys, then delete all six; the tombstones leave slots_used at 6 although no
live entry remains. -/
def churnOps : List Op :=
  Op.reserve true 8 ::
    (((List.range 6).map fun i => Op.insert true [97 + i] [i, 0, 0, 0, 0, 0, 0, 0]) ++
      ((List.range 6).map fun i => Op.delete [97 + i]))

/-- The state reached by churnOps. -/
def churnState : HT := runOps (dht_open_fresh 15 8) churnOps

/-- Claim C10, counterexample: after dht_reserve(8) succeeded (returning
capacity 8) on the fresh table, six inserts followed by six deletes leave 0
live entries (0 < 8) but slots_used 6 because of tombstones; the next insert
of the valid short key "x" re-triggers the load check and, when the
allocation oracle fails, returns -ENOMEM, refuting the claim that inserts
never fail while the number of live entries stays below the reserved
capacity. -/
theorem C10_counterexample :
    (dht_reserve (dht_open_fresh 15 8) true 8).1 = 8 ∧
      dht_size churnState = 0 ∧
      dht_slots_used churnState = 6 ∧
      churnState.readOnly = false ∧
      ([120] : List Nat).length < churnState.key_maxlen ∧
      (dht_insert churnState false [120] [9, 0, 0, 0, 0, 0, 0, 0]).1 = -ENOMEM := by
  decide

/-- Claim C10, amended: tombstones count against the load bound, so staying
below the reserved live-entry count does not prevent further reserve calls;
what does hold is: on a read-write table, whenever the load check cannot
fire, i.e. slots_used + 1 is at most 3/4 of the capacity, dht_insert of a
key of valid length performs no reserve call and returns 1 (inserted) or 0
(duplicate) for every allocation oracle. -/
theorem C10_amended_insert_total (s : HT) (alloc : Bool) (k v : List Nat)
    (hInv : HTInv s) (hro : s.readOnly = false) (hlen : k.length < s.key_maxlen)
    (hload : s.slots_used + 1 ≤ 3 * s.capacity / 4) :
    (dht_insert s alloc k v).1 = 1 ∨ (dht_insert s alloc k v).1 = 0 := by
  have hntrig : ¬ (3 * s.capacity / 4 < s.slots_used + 1) := by omega
  have heq : dht_insert s alloc k v = insertRaw s k v := by
    unfold dht_insert
    rw [if_neg (show ¬ (s.key_maxlen ≤ k.length) by omega), hro, if_neg hntrig]
    rfl
  rw [heq]
  unfold insertRaw
  cases hpi : probeInsert s k none s.capacity 0 with
  | dup => exact Or.inr rfl
  | overflow => exact absurd hpi (probeInsert_top_ne_overflow hInv none)
  | place pos reused => exact Or.inl rfl

theorem C10_witness :
    (dht_insert (dht_open_fresh 15 8) false [97] [1]).1 = 1 ∨
      (dht_insert (dht_open_fresh 15 8) false [97] [1]).1 = 0 :=
  C10_amended_insert_total (dht_open_fresh 15 8) false [97] [1]
    (inv_open_fresh 15 8) rfl (by decide) (by decide)
